import Mathlib

/-!
Verification of the dria-agent-b training core against its specification.

Strings are modelled as `List Char` (`Str`).  Python string operations used by
the source (`find`, `split`, `strip`, `in`, `re.findall`, `re.sub` on escaped
literals, the two regex searches of `remove_all_thinks_except_last`) are given
executable structural embeddings below; each definition carries a comment
pointing at the source construct it embeds.  Numeric reward arithmetic
(`float` in the source, always exact decimal fractions) is modelled over `ℚ`.
-/

namespace Dria

open List

abbrev Str := List Char

/-- `isPySpace c`: the ASCII whitespace characters recognised by Python's
`str.strip()` (`' '`, `'\t'`, `'\n'`, `'\r'`, `'\x0b'`, `'\x0c'`). -/
def isPySpace (c : Char) : Bool :=
  c = ' ' || c = '\t' || c = '\n' || c = '\r' || c = '\x0b' || c = '\x0c'

/-- Python `s.strip()`: drop whitespace from both ends. -/
def pyStrip (s : Str) : Str :=
  ((s.dropWhile isPySpace).reverse.dropWhile isPySpace).reverse

/-- Python `s.find(pat)` (first occurrence index), as an `Option Nat`
(`none` plays the role of `-1`). -/
def findSub (s pat : Str) : Option Nat :=
  if pat.isPrefixOf s then some 0
  else
    match s with
    | [] => none
    | _ :: t => (findSub t pat).map (· + 1)

/-- Python `pat in s`. -/
def containsSub (s pat : Str) : Bool :=
  (findSub s pat).isSome

/-- Python `s.split(pat)[0]`: everything before the first occurrence of `pat`
(the whole of `s` when `pat` does not occur). -/
def takeUntilFirst (pat : Str) : Str → Str
  | [] => []
  | c :: t =>
    if pat.isPrefixOf (c :: t) then []
    else c :: takeUntilFirst pat t

/-- Everything after the first occurrence of `pat` (`[]` when `pat` is
absent); composed with `takeUntilFirst` this yields Python `s.split(pat)[1]`
when `pat` occurs in `s`. -/
def dropPastFirst (pat : Str) : Str → Str
  | [] => []
  | c :: t =>
    if pat.isPrefixOf (c :: t) then (c :: t).drop pat.length
    else dropPastFirst pat t

/-- Python `re.sub(re.escape(pat), "", s, count=1)`: remove the first
occurrence of the literal `pat` (identity when `pat` is absent). -/
def removeFirst (pat : Str) : Str → Str
  | [] => []
  | c :: t =>
    if pat.isPrefixOf (c :: t) then (c :: t).drop pat.length
    else c :: removeFirst pat t

/-- All positions (overlapping included) at which `pat` matches inside `s`. -/
def occPositions (pat : Str) : Str → List Nat
  | [] => if pat.isPrefixOf ([] : Str) then [0] else []
  | c :: t =>
    (if pat.isPrefixOf (c :: t) then [0] else []) ++ (occPositions pat t).map (· + 1)

/-- `pat` has no nontrivial border: no proper suffix of `pat` is also a
prefix.  All fixed markers used by the source satisfy this; it rules out
occurrences of a marker straddling a concatenation boundary. -/
def borderFree (pat : Str) : Bool :=
  (List.range pat.length).all
    (fun k => k = 0 || decide (pat.drop k ≠ pat.take (pat.length - k)))

theorem borderFree_spec {pat : Str} (h : borderFree pat = true) :
    ∀ k, 0 < k → k < pat.length → pat.drop k ≠ pat.take (pat.length - k) := by
  intro k hk hlt
  have := (List.all_eq_true.mp h) k (List.mem_range.mpr hlt)
  simp only [Bool.or_eq_true, decide_eq_true_eq] at this
  rcases this with h0 | hne
  · omega
  · exact hne

/-- Worker for Python `s.split(d)` (`d` nonempty): `skip` counts delimiter
characters still to be consumed, `acc` is the current part reversed. -/
def pySplitA (d : Str) : Nat → Str → Str → List Str
  | Nat.succ k, acc, _ :: t => pySplitA d k acc t
  | Nat.succ _, acc, [] => [acc.reverse]
  | 0, acc, [] => [acc.reverse]
  | 0, acc, c :: t =>
    if d.isPrefixOf (c :: t) then acc.reverse :: pySplitA d (d.length - 1) [] t
    else pySplitA d 0 (c :: acc) t

/-- Python `s.split(d)` for a fixed nonempty delimiter `d`. -/
def pySplit (d s : Str) : List Str :=
  pySplitA d 0 [] s

/- ------------------------------------------------------------------
src/training/utils.py — constants, TaskType, Task, label codec
------------------------------------------------------------------ -/

/-- `DELIMITER = "\n\n~/~/~/~/~/~/~/~/~/~/~/~\n\n"` (src/training/utils.py:7). -/
def DELIMITER : Str := "\n\n~/~/~/~/~/~/~/~/~/~/~/~\n\n".toList

/-- `MAX_STEPS = 8` (src/training/utils.py:8). -/
def MAX_STEPS : ℚ := 8

/-- `class TaskType(Enum)` (src/training/utils.py:10-13). -/
inductive TaskType where
  | RETRIEVAL
  | UPDATE
  | CLARIFICATION
deriving DecidableEq

/-- `TaskType.value`. -/
def TaskType.value : TaskType → Str
  | .RETRIEVAL => "retrieval".toList
  | .UPDATE => "update".toList
  | .CLARIFICATION => "clarification".toList

/-- `TaskType(v)`: enum lookup by value, `none` models the `ValueError`. -/
def taskTypeOfValue (v : Str) : Option TaskType :=
  if v = "retrieval".toList then some .RETRIEVAL
  else if v = "update".toList then some .UPDATE
  else if v = "clarification".toList then some .CLARIFICATION
  else none

/-- `class Task(BaseModel)` (src/training/utils.py:15-18). -/
structure Task where
  task_type : TaskType
  mem_id : Str
  answer : Str
deriving DecidableEq

/-- Python exceptions surfaced by the embedded functions. -/
inductive PyErr where
  | typeError
  | valueError
  | unboundLocal
  | fileNotFound
deriving DecidableEq

deriving instance DecidableEq for Except

/-- `construct_label` (src/training/utils.py:20-32):
`f"{task_type.value}{DELIMITER}{mem_id}{DELIMITER}{answer}"`. -/
def construct_label (task_type : TaskType) (answer mem_id : Str) : Str :=
  task_type.value ++ DELIMITER ++ mem_id ++ DELIMITER ++ answer

/-- `extract_task_from_label` (src/training/utils.py:34-45):
`task_type, mem_id, answer = label.split(DELIMITER)` raises `ValueError`
unless the split yields exactly three parts; `TaskType(task_type)` raises
`ValueError` on an unknown value. -/
def extract_task_from_label (label : Str) : Except PyErr Task :=
  match pySplit DELIMITER label with
  | [t, m, a] =>
    match taskTypeOfValue t with
    | some tt => .ok ⟨tt, m, a⟩
    | none => .error .valueError
  | _ => .error .valueError

example :
    extract_task_from_label (construct_label .UPDATE "ans".toList "m7".toList) =
      .ok ⟨.UPDATE, "m7".toList, "ans".toList⟩ := by decide

example : pySplit "b".toList "abc".toList = ["a".toList, "c".toList] := by decide
example : pyStrip "  a b ".toList = "a b".toList := by decide
example : borderFree "assistant".toList = true := by decide

/- ------------------------------------------------------------------
src/training/utils.py — extract_question
------------------------------------------------------------------ -/

def imStartUser : Str := "<|im_start|>user".toList
def imStartAsst : Str := "<|im_start|>assistant".toList
def imEndTok : Str := "<|im_end|>".toList

/-- `extract_question` (src/training/utils.py:48-68).
`observation.split("<|im_start|>user")[1]` is the text between the first and
second occurrence of the user marker (to the end when there is no second
occurrence), i.e. `takeUntilFirst ∘ dropPastFirst`; `.split(m)[0]` is
`takeUntilFirst m`.  The two `raise ValueError` branches return `.error`. -/
def extract_question (observation : Str) : Except PyErr Str :=
  if containsSub observation imStartUser then
    if containsSub observation imStartAsst then
      let seg := takeUntilFirst imStartUser (dropPastFirst imStartUser observation)
      let extracted_question := pyStrip (takeUntilFirst imStartAsst seg)
      if containsSub extracted_question imEndTok then
        .ok (pyStrip (takeUntilFirst imEndTok extracted_question))
      else
        .ok extracted_question
    else .error .valueError
  else .error .valueError

/- ------------------------------------------------------------------
src/training/utils.py — extract_python_blocks
------------------------------------------------------------------ -/

def pyOpenTag : Str := "<python>".toList
def pyCloseTag : Str := "</python>".toList

/-- Body search for `re.findall(r"<python>(.*?)</python>", s)` WITHOUT
`re.DOTALL`: starting right after an opening tag, the lazy body may not
contain a newline (`.` excludes `'\n'`); the match uses the first closing tag
reachable without crossing a newline, otherwise the match attempt fails. -/
def lineBody : Str → Option Str
  | [] => none
  | c :: t =>
    if pyCloseTag.isPrefixOf (c :: t) then some []
    else if c = '\n' then none
    else (lineBody t).map (c :: ·)

/-- Scanner for `re.findall(r"<python>(.*?)</python>", s)` (no DOTALL).
`skip` counts characters of an already-recognised match still to pass over.
On a failed match attempt (no closing tag before a newline) the regex engine
resumes scanning at the next character, exactly as here. -/
def pyScanA : Nat → Str → List Str
  | _ + 1, [] => []
  | k + 1, _ :: t => pyScanA k t
  | 0, [] => []
  | 0, c :: t =>
    if pyOpenTag.isPrefixOf (c :: t) then
      match lineBody ((c :: t).drop pyOpenTag.length) with
      | some body =>
        body :: pyScanA (pyOpenTag.length + body.length + pyCloseTag.length - 1) t
      | none => pyScanA 0 t
    else pyScanA 0 t

/-- The list of matched bodies, in document order. -/
def findPythonBlocks (s : Str) : List Str :=
  pyScanA 0 s

/-- Python `"\n".join(parts)`. -/
def joinNewline : List Str → Str
  | [] => []
  | [p] => p
  | p :: q :: t => p ++ '\n' :: joinNewline (q :: t)

/-- `extract_python_blocks` (src/training/utils.py:70-85):
re-wrap every matched body in `<python>`/`</python>` and join with `"\n"`. -/
def extract_python_blocks (observation : Str) : Str :=
  joinNewline ((findPythonBlocks observation).map
    (fun block => pyOpenTag ++ block ++ pyCloseTag))

example :
    extract_python_blocks "a<python>x</python>b<python></python>".toList =
      "<python>x</python>\n<python></python>".toList := by decide
example : extract_python_blocks "<python>a\nb</python>".toList = [] := by decide
example :
    extract_python_blocks "<python>a\n<python>b</python>".toList =
      "<python>b</python>".toList := by decide

/- ------------------------------------------------------------------
src/training/utils.py — remove_all_thinks_except_last
------------------------------------------------------------------ -/

def thinkOpen : Str := "<think>".toList
def thinkClose : Str := "</think>".toList

/-- `"<think>" + body + "</think>"`. -/
def wrapThink (body : Str) : Str :=
  thinkOpen ++ body ++ thinkClose

def asstTok : Str := "assistant".toList

/-- Scanner for `re.findall(r"<think>(.*?)</think>", s, re.DOTALL)`.
`skip` counts characters of tag text still to pass over; `mode = some acc`
is inside a lazy body (accumulated reversed), `none` is outside.  With
DOTALL the body may contain anything; if no closing tag follows an opening
tag the pending body is discarded (the regex has no match there, and none
later either, since any later match would need a closing tag further right). -/
def scanA : Nat → Option Str → Str → List Str
  | _ + 1, _, [] => []
  | k + 1, m, _ :: t => scanA k m t
  | 0, _, [] => []
  | 0, none, c :: t =>
    if thinkOpen.isPrefixOf (c :: t) then scanA (thinkOpen.length - 1) (some []) t
    else scanA 0 none t
  | 0, some acc, c :: t =>
    if thinkClose.isPrefixOf (c :: t) then
      acc.reverse :: scanA (thinkClose.length - 1) none t
    else scanA 0 (some (c :: acc)) t

/-- `re.findall(r"<think>(.*?)</think>", s, re.DOTALL)`. -/
def scanThinks (s : Str) : List Str :=
  scanA 0 none s

/-- The lookahead `[^<]*</think>` of the incomplete-block regex: succeeds iff
a closing tag is reachable from here crossing only non-`'<'` characters. -/
def lookaheadOk : Str → Bool
  | [] => false
  | c :: t =>
    if thinkClose.isPrefixOf (c :: t) then true
    else if c = '<' then false
    else lookaheadOk t

/-- Start position of `re.search(r"<think>(?![^<]*</think>).*?$", s, re.DOTALL)`:
the leftmost `<think>` whose negative lookahead succeeds (i.e. `lookaheadOk`
fails right after the opening tag). -/
def incompleteStart : Str → Option Nat
  | [] => none
  | c :: t =>
    if thinkOpen.isPrefixOf (c :: t) && !lookaheadOk ((c :: t).drop thinkOpen.length)
    then some 0
    else (incompleteStart t).map (· + 1)

/-- The descending scan of src/training/utils.py:131-135: index of the last
block whose stripped body is nonempty (`none` models `-1`). -/
def lastNonEmptyIdx : List Str → Option Nat
  | [] => none
  | b :: t =>
    match lastNonEmptyIdx t with
    | some j => some (j + 1)
    | none => if pyStrip b = [] then none else some 0

/-- The removal loop of src/training/utils.py:138-142: for each index `i ≠
last_non_empty_index` in ascending order, `re.sub` the escaped literal
`<think>{body}</think>` once (first occurrence). -/
def removeLoop (keep : Option Nat) : Nat → List Str → Str → Str
  | _, [], r => r
  | i, b :: t, r =>
    removeLoop keep (i + 1) t
      (if keep = some i then r else removeFirst (wrapThink b) r)

/-- `remove_all_thinks_except_last` (src/training/utils.py:87-168).
The if/elif chain at lines 153-165 only contains `pass` bodies and is a
no-op, so it has no counterpart here. -/
def remove_all_thinks_except_last (observation : Str) : Str :=
  match findSub observation asstTok with
  | none => observation
  | some pos =>
    let before_assistant := observation.take (pos + asstTok.length)
    let after_assistant := observation.drop (pos + asstTok.length)
    let think_blocks := scanThinks after_assistant
    let result_after :=
      match think_blocks with
      | [] => after_assistant
      | [b] =>
        if pyStrip b = [] then removeFirst (wrapThink b) after_assistant
        else after_assistant
      | _ =>
        removeLoop (lastNonEmptyIdx think_blocks) 0 think_blocks after_assistant
    let result_after :=
      match incompleteStart result_after with
      | some j => result_after.take j
      | none => result_after
    before_assistant ++ result_after

example :
    remove_all_thinks_except_last
        "u assistant<think>a</think>x<think> </think>y<think>b</think>z".toList =
      "u assistantxy<think>b</think>z".toList := by decide
example :
    remove_all_thinks_except_last "assistant<think>a<b</think>x<think> </think>".toList =
      "assistant".toList := by decide
example :
    remove_all_thinks_except_last "assistant pre<think>unfinished".toList =
      "assistant pre".toList := by decide
example :
    remove_all_thinks_except_last "no marker <think> </think>".toList =
      "no marker <think> </think>".toList := by decide

/- ------------------------------------------------------------------
Structured transcripts: suffixes made of think blocks and gaps
------------------------------------------------------------------ -/

/-- `noLt s`: the string contains no `'<'`; used to describe transcript
content in which `'<'` appears only inside think tags. -/
def noLt (s : Str) : Prop := '<' ∉ s

instance (s : Str) : Decidable (noLt s) :=
  inferInstanceAs (Decidable ('<' ∉ s))

/-- A structured suffix: each segment is an optional think block (with a
`'<'`-free body) followed by a gap of non-think text. -/
def segsStr : List (Option Str × Str) → Str
  | [] => []
  | (some b, g) :: t => wrapThink b ++ g ++ segsStr t
  | (none, g) :: t => g ++ segsStr t

/-- A leading gap followed by think blocks each followed by a gap. -/
def tailStr : List (Str × Str) → Str
  | [] => []
  | (b, g) :: t => wrapThink b ++ g ++ tailStr t

/-- Same shape with every block removed except the one at index `keep`. -/
def tailStrKept (keep : Option Nat) : Nat → List (Str × Str) → Str
  | _, [] => []
  | i, (b, g) :: t =>
    (if keep = some i then wrapThink b else []) ++ g ++ tailStrKept keep (i + 1) t

/-- The same selection as a segment list. -/
def keptSegs (keep : Option Nat) : Nat → List (Str × Str) → List (Option Str × Str)
  | _, [] => []
  | i, (b, g) :: t =>
    ((if keep = some i then some b else none), g) :: keptSegs keep (i + 1) t

/-- At whichever index `keep` points to, the block body there differs from
every later block body (used to show the removal loop never deletes the
kept block by mistake). -/
def KeepSep (keep : Option Nat) : Nat → List (Str × Str) → Prop
  | _, [] => True
  | i, (b, _) :: t => (keep = some i → ∀ e ∈ t, b ≠ e.1) ∧ KeepSep keep (i + 1) t

/- ------------------------------------------------------------------
src/training/action_processor.py — rewards and the step processor
------------------------------------------------------------------ -/

/-- `calculate_python_reward` (src/training/action_processor.py:10-37).
Step numbers are Python ints, rewards exact decimal floats: modelled as ℚ. -/
def calculate_python_reward (python_code : Str) (step_num : Int) : ℚ :=
  let scaling_factor : ℚ := max 0 (1 - (2 * step_num / MAX_STEPS : ℚ))
  let reward_addition := (15 : ℚ) / 100 * scaling_factor
  if step_num = 0 then
    let desired_strings : List Str :=
      ["check_if_file_exists('user.md')".toList,
       "check_if_file_exists(\"user.md\")".toList,
       "read_file('user.md')".toList,
       "read_file(\"user.md\")".toList]
    if desired_strings.any (fun s => containsSub python_code s) then
      reward_addition + (2 : ℚ) / 10 * scaling_factor
    else reward_addition
  else reward_addition

/-- `process_action_base` (src/training/action_processor.py:40-137).
`execFmt` injects the external `execute_sandboxed_code` + `format_results`
collaborators (the formatted observation text produced for the given code);
`reply_reward_calculator` is the injected evaluator, of arbitrary return
value.  Returns `(reward, done, next_observation)`. -/
def process_action_base
    (observation action python_code reply thoughts : Str)
    (task : Task) (thoughts_min_length : Int) (step_num : Int)
    (reply_reward_calculator : Str → Str → Task → ℚ)
    (execFmt : Str → Task → Str) : ℚ × Bool × Str :=
  let python_code_exists := (pyStrip python_code).length > 0
  let reply_exists := (pyStrip reply).length > 0
  let thoughts_exists := (pyStrip thoughts).length > 0
  let thoughts_long_enough := ((pyStrip thoughts).length : Int) > thoughts_min_length
  let thoughts_scaling_factor : ℚ :=
    if (step_num : ℚ) ≤ MAX_STEPS / 2 then
      1 - (8 : ℚ) / 10 * ((step_num : ℚ) / (MAX_STEPS / 2))
    else
      (2 : ℚ) / 10 * (1 - ((step_num : ℚ) - MAX_STEPS / 2) / (MAX_STEPS / 2))
  let reward : ℚ :=
    (if thoughts_exists then (5 : ℚ) / 100 else 0) * thoughts_scaling_factor
  let reward :=
    if thoughts_long_enough then reward + (5 : ℚ) / 100 * thoughts_scaling_factor
    else reward
  let done := false
  let step :=
    if python_code_exists && reply_exists then
      (reward, done,
        observation ++ action ++ "\nuser\n".toList ++
        ("\n [ERROR] Choose one action: either explore with <python> ... </python> OR provide final answer with <reply> ... </reply>." ++
         "\n [HINT] If you haven't found the answer yet, use <python> to interact with the memory. If you're confident, use <reply>." ++
         "\nassistant\n").toList)
    else if python_code_exists then
      (reward + calculate_python_reward python_code step_num, done,
        observation ++ action ++ "\nuser\n".toList ++
        execFmt python_code task ++ "\nassistant\n".toList)
    else if reply_exists then
      (reward + reply_reward_calculator observation reply task, true,
        observation ++ action ++ "\n".toList)
    else
      (reward, done,
        observation ++ action ++ "\nuser\n".toList ++
        ("\n [ERROR] Missing action blocks. You must either:" ++
         "\n   1. Use <python>...</python> to interact with the memory" ++
         "\n   2. Use <reply>...</reply> to provide your final answer to the user" ++
         "\nassistant\n").toList)
  (max (min step.1 1) 0, step.2.1, step.2.2)

/- ------------------------------------------------------------------
src/agent/tools.py — write_to_file (DiffPatchTool)
------------------------------------------------------------------ -/

/-- Outcome of `open(temp_file_path, "w")` + `tmp.write(diff)`: success,
an exception raised after the scratch file was created (e.g. disk full
mid-write), or an exception with no file created (e.g. unwritable dir). -/
inductive WriteOutcome where
  | ok
  | failCreated
  | failNotCreated
deriving DecidableEq

/-- External environment of `write_to_file`: scratch-write outcome, whether
the `git` executable exists on PATH (`subprocess.run` raises
`FileNotFoundError` when it does not), the return codes of the two `git
apply` invocations, and the content transformation a successful real apply
performs (`git apply --check` is a documented dry run and never mutates). -/
structure GitEnv where
  writeOutcome : WriteOutcome
  gitAvailable : Bool
  checkRc : Int
  applyRc : Int
  applyEffect : Str → Str

/-- Observable state after the call: whether the scratch patch file still
exists, the target file's content, and how many times the real (non-check)
`git apply` ran. -/
structure SysState where
  scratchExists : Bool
  target : Str
  applyRuns : Nat
deriving DecidableEq

/-- `write_to_file` (src/agent/tools.py:100-152).  The body has no `except`
clause.  If the scratch write raises, the local `patch_file` was never
assigned, so the `finally` block's `os.path.exists(patch_file)` raises
`UnboundLocalError` before any cleanup: the scratch file stays in whatever
state the failed write left it.  If `git` is missing, `subprocess.run`
raises `FileNotFoundError`; `patch_file` is bound by then, so the `finally`
block does remove the scratch file before the exception propagates. -/
def write_to_file (env : GitEnv) (target0 : Str) : Except PyErr Bool × SysState :=
  match env.writeOutcome with
  | .failNotCreated => (.error .unboundLocal, ⟨false, target0, 0⟩)
  | .failCreated => (.error .unboundLocal, ⟨true, target0, 0⟩)
  | .ok =>
    if env.gitAvailable = false then
      (.error .fileNotFound, ⟨false, target0, 0⟩)
    else if env.checkRc ≠ 0 then
      (.ok false, ⟨false, target0, 0⟩)
    else
      (.ok (decide (env.applyRc = 0)),
        ⟨false, if env.applyRc = 0 then env.applyEffect target0 else target0, 1⟩)

/- ------------------------------------------------------------------
src/training/update.py — calculate_update_reply_reward
------------------------------------------------------------------ -/

/-- The parameter names of `get_update_reward` (src/training/reward.py:173-178). -/
def getUpdateRewardParamNames : List String :=
  ["user_query", "initial_folder_dump", "final_folder_dump", "debug"]

/-- The keyword-argument names used by the call in
`calculate_update_reply_reward` (src/training/update.py:8-12). -/
def updateCallKwargNames : List String :=
  ["python_blocks", "diff", "debug"]

/-- `calculate_update_reply_reward` (src/training/update.py:4-13).  `judge`
injects the external judge-model evaluation `get_update_reward` would
perform; Python keyword-argument binding raises `TypeError` when a keyword
does not name a parameter of the callee, before the callee's body runs. -/
def calculate_update_reply_reward (judge : Str → Str → Bool → ℚ)
    (observation reply : Str) (task : Task) : Except PyErr ℚ :=
  let python_blocks := extract_python_blocks observation
  let diff := task.answer
  if updateCallKwargNames.all (fun k => getUpdateRewardParamNames.contains k) then
    .ok (judge python_blocks diff true)
  else .error .typeError

/- ------------------------------------------------------------------
Infrastructure: occurrences, first-occurrence scans, border-freeness
------------------------------------------------------------------ -/

theorem findSub_eq_none_iff {s pat : Str} :
    findSub s pat = none ↔ ∀ i, pat.isPrefixOf (s.drop i) = false := by
  induction s with
  | nil =>
    cases h : pat.isPrefixOf ([] : Str) <;> simp [findSub, h]
  | cons c t ih =>
    cases h : pat.isPrefixOf (c :: t) with
    | true =>
      simp only [findSub, h, if_true]
      constructor
      · intro hx; cases hx
      · intro hall
        have := hall 0
        simp [h] at this
    | false =>
      simp only [findSub, h, Bool.false_eq_true, if_false]
      constructor
      · intro hmap i
        have ht : findSub t pat = none := by
          cases hf : findSub t pat with
          | none => rfl
          | some v => rw [hf] at hmap; cases hmap
        cases i with
        | zero => simpa using h
        | succ j =>
          have := ih.mp ht j
          simpa using this
      · intro hall
        have : findSub t pat = none := ih.mpr (fun i => by
          have := hall (i + 1)
          simpa using this)
        rw [this]
        rfl

theorem containsSub_eq_false_iff {s pat : Str} :
    containsSub s pat = false ↔ ∀ i, pat.isPrefixOf (s.drop i) = false := by
  rw [← findSub_eq_none_iff]
  cases hf : findSub s pat <;> simp [containsSub, hf]

theorem containsSub_eq_true_iff {s pat : Str} :
    containsSub s pat = true ↔ ∃ i, pat.isPrefixOf (s.drop i) = true := by
  rw [← Bool.not_eq_false, containsSub_eq_false_iff]
  push_neg
  simp [Bool.ne_false_iff]

theorem containsSub_infix_iff {s pat : Str} :
    containsSub s pat = true ↔ pat <:+: s := by
  rw [containsSub_eq_true_iff]
  constructor
  · rintro ⟨i, hi⟩
    exact ((List.isPrefixOf_iff_prefix.mp hi).isInfix).trans (List.drop_suffix i s).isInfix
  · rintro ⟨u, v, huv⟩
    refine ⟨u.length, ?_⟩
    rw [List.isPrefixOf_iff_prefix, ← huv, List.append_assoc, List.drop_left]
    exact List.prefix_append pat v

theorem containsSub_wrap (pre pat rest : Str) :
    containsSub (pre ++ pat ++ rest) pat = true := by
  rw [containsSub_infix_iff]
  exact ⟨pre, rest, rfl⟩

/-- No occurrence of a border-free `pat` can start strictly inside `pre` in
`pre ++ pat ++ rest` when `pre` itself contains no occurrence. -/
theorem no_occ_before {pat pre : Str} (rest : Str) (hbf : borderFree pat = true)
    (hc : containsSub pre pat = false) :
    ∀ i, i < pre.length → pat.isPrefixOf ((pre ++ pat ++ rest).drop i) = false := by
  intro i hi
  by_contra hne
  have hpref : pat <+: (pre ++ pat ++ rest).drop i :=
    List.isPrefixOf_iff_prefix.mp (Bool.not_eq_false _ |>.mp hne)
  have hdrop : (pre ++ pat ++ rest).drop i = pre.drop i ++ (pat ++ rest) := by
    rw [List.append_assoc, List.drop_append_eq_append_drop,
      Nat.sub_eq_zero_of_le (Nat.le_of_lt hi), List.drop_zero]
  rw [hdrop] at hpref
  have htake := List.prefix_iff_eq_take.mp hpref
  by_cases hcase : i + pat.length ≤ pre.length
  · -- the occurrence lies entirely inside pre
    have hlen : pat.length ≤ (pre.drop i).length := by
      simp only [List.length_drop]; omega
    have h1 : (pre.drop i ++ (pat ++ rest)).take pat.length = (pre.drop i).take pat.length := by
      rw [List.take_append_eq_append_take, Nat.sub_eq_zero_of_le hlen,
        List.take_zero, List.append_nil]
    have h2 : pat = (pre.drop i).take pat.length := htake.trans h1
    have hp : pat.isPrefixOf (pre.drop i) = true :=
      List.isPrefixOf_iff_prefix.mpr (List.prefix_iff_eq_take.mpr h2)
    have := containsSub_eq_false_iff.mp hc i
    rw [this] at hp
    cases hp
  · -- the occurrence straddles the boundary: pat would have a border
    have hl1 : 0 < pre.length - i := by omega
    have hl2 : pre.length - i < pat.length := by omega
    have hlen : (pre.drop i).length = pre.length - i := List.length_drop i pre
    have e1 : (pre.drop i ++ (pat ++ rest)).take pat.length =
        pre.drop i ++ (pat ++ rest).take (pat.length - (pre.length - i)) := by
      rw [List.take_append_eq_append_take, List.take_of_length_le (by omega), hlen]
    have e2 : (pat ++ rest).take (pat.length - (pre.length - i)) =
        pat.take (pat.length - (pre.length - i)) := by
      rw [List.take_append_eq_append_take,
        Nat.sub_eq_zero_of_le (by omega : pat.length - (pre.length - i) ≤ pat.length),
        List.take_zero, List.append_nil]
    have hsplit : pat = pre.drop i ++ pat.take (pat.length - (pre.length - i)) :=
      htake.trans (e1.trans (by rw [e2]))
    have hdrop2 : pat.drop (pre.length - i) = pat.take (pat.length - (pre.length - i)) := by
      conv_lhs => rw [hsplit]
      rw [List.drop_append_eq_append_drop, hlen, Nat.sub_self, List.drop_zero, ← hlen,
        List.drop_length, List.nil_append]
    exact borderFree_spec hbf (pre.length - i) hl1 hl2 hdrop2

theorem findSub_append_first {pat : Str} (pre rest : Str)
    (h : ∀ i, i < pre.length → pat.isPrefixOf ((pre ++ pat ++ rest).drop i) = false) :
    findSub (pre ++ pat ++ rest) pat = some pre.length := by
  induction pre with
  | nil =>
    have hp : pat.isPrefixOf (pat ++ rest) = true :=
      List.isPrefixOf_iff_prefix.mpr (List.prefix_append pat rest)
    rw [List.nil_append, List.length_nil]
    cases hpat : pat ++ rest with
    | nil =>
      rw [hpat] at hp
      simp [findSub, hp]
    | cons c t =>
      rw [hpat] at hp
      simp [findSub, hp]
  | cons c p ih =>
    have h0 : pat.isPrefixOf (c :: (p ++ pat ++ rest)) = false := by
      have h' := h 0 (by simp)
      simp only [List.cons_append, List.drop_zero] at h'
      exact h'
    have hrec := ih (fun i hi => by
      have h' := h (i + 1) (by simp only [List.length_cons]; omega)
      simp only [List.cons_append, List.drop_succ_cons] at h'
      exact h')
    simp only [List.cons_append, findSub, List.append_eq, h0, Bool.false_eq_true, if_false,
      hrec, Option.map_some', List.length_cons]

theorem takeUntilFirst_append_first {pat : Str} (pre rest : Str)
    (h : ∀ i, i < pre.length → pat.isPrefixOf ((pre ++ pat ++ rest).drop i) = false) :
    takeUntilFirst pat (pre ++ pat ++ rest) = pre := by
  induction pre with
  | nil =>
    have hp : pat.isPrefixOf (pat ++ rest) = true :=
      List.isPrefixOf_iff_prefix.mpr (List.prefix_append pat rest)
    rw [List.nil_append]
    cases hpat : pat ++ rest with
    | nil => simp [takeUntilFirst]
    | cons c t =>
      rw [hpat] at hp
      simp [takeUntilFirst, hp]
  | cons c p ih =>
    have h0 : pat.isPrefixOf (c :: (p ++ pat ++ rest)) = false := by
      have h' := h 0 (by simp)
      simp only [List.cons_append, List.drop_zero] at h'
      exact h'
    have hrec := ih (fun i hi => by
      have h' := h (i + 1) (by simp only [List.length_cons]; omega)
      simp only [List.cons_append, List.drop_succ_cons] at h'
      exact h')
    simp only [List.cons_append, takeUntilFirst, List.append_eq, h0, Bool.false_eq_true, if_false, hrec]

theorem dropPastFirst_append_first {pat : Str} (pre rest : Str)
    (h : ∀ i, i < pre.length → pat.isPrefixOf ((pre ++ pat ++ rest).drop i) = false) :
    dropPastFirst pat (pre ++ pat ++ rest) = rest := by
  induction pre with
  | nil =>
    rw [List.nil_append]
    cases pat with
    | nil =>
      cases rest with
      | nil => rfl
      | cons c t => simp [dropPastFirst, List.isPrefixOf]
    | cons a b =>
      have hp : (a :: b).isPrefixOf (a :: (b ++ rest)) = true := by
        rw [← List.cons_append]
        exact List.isPrefixOf_iff_prefix.mpr (List.prefix_append _ _)
      rw [List.cons_append]
      simp [dropPastFirst, hp, List.drop_succ_cons, List.drop_left]
  | cons c p ih =>
    have h0 : pat.isPrefixOf (c :: (p ++ pat ++ rest)) = false := by
      have h' := h 0 (by simp)
      simp only [List.cons_append, List.drop_zero] at h'
      exact h'
    have hrec := ih (fun i hi => by
      have h' := h (i + 1) (by simp only [List.length_cons]; omega)
      simp only [List.cons_append, List.drop_succ_cons] at h'
      exact h')
    simp only [List.cons_append, dropPastFirst, List.append_eq, h0, Bool.false_eq_true, if_false, hrec]

theorem removeFirst_append_first {pat : Str} (pre rest : Str)
    (h : ∀ i, i < pre.length → pat.isPrefixOf ((pre ++ pat ++ rest).drop i) = false) :
    removeFirst pat (pre ++ pat ++ rest) = pre ++ rest := by
  induction pre with
  | nil =>
    rw [List.nil_append, List.nil_append]
    cases pat with
    | nil =>
      cases rest with
      | nil => rfl
      | cons c t => simp [removeFirst, List.isPrefixOf]
    | cons a b =>
      have hp : (a :: b).isPrefixOf (a :: (b ++ rest)) = true := by
        rw [← List.cons_append]
        exact List.isPrefixOf_iff_prefix.mpr (List.prefix_append _ _)
      rw [List.cons_append]
      simp [removeFirst, hp, List.drop_succ_cons, List.drop_left]
  | cons c p ih =>
    have h0 : pat.isPrefixOf (c :: (p ++ pat ++ rest)) = false := by
      have h' := h 0 (by simp)
      simp only [List.cons_append, List.drop_zero] at h'
      exact h'
    have hrec := ih (fun i hi => by
      have h' := h (i + 1) (by simp only [List.length_cons]; omega)
      simp only [List.cons_append, List.drop_succ_cons] at h'
      exact h')
    simp only [List.cons_append, removeFirst, List.append_eq, h0, Bool.false_eq_true, if_false, hrec]

theorem takeUntilFirst_of_not_contains {pat s : Str}
    (h : containsSub s pat = false) : takeUntilFirst pat s = s := by
  induction s with
  | nil => simp [takeUntilFirst]
  | cons c t ih =>
    have h0 := containsSub_eq_false_iff.mp h 0
    simp only [List.drop_zero] at h0
    have ht : containsSub t pat = false :=
      containsSub_eq_false_iff.mpr (fun i => by
        have := containsSub_eq_false_iff.mp h (i + 1)
        simpa using this)
    simp [takeUntilFirst, h0, ih ht]

theorem removeFirst_of_not_contains {pat s : Str}
    (h : containsSub s pat = false) : removeFirst pat s = s := by
  induction s with
  | nil => simp [removeFirst]
  | cons c t ih =>
    have h0 := containsSub_eq_false_iff.mp h 0
    simp only [List.drop_zero] at h0
    have ht : containsSub t pat = false :=
      containsSub_eq_false_iff.mpr (fun i => by
        have := containsSub_eq_false_iff.mp h (i + 1)
        simpa using this)
    simp [removeFirst, h0, ih ht]

/- ------------------------------------------------------------------
Infrastructure for the label codec: occurrence positions and pySplit
------------------------------------------------------------------ -/

theorem mem_occPositions {pat : Str} (hne : pat ≠ []) (s : Str) (i : Nat) :
    i ∈ occPositions pat s ↔ pat.isPrefixOf (s.drop i) = true := by
  induction s generalizing i with
  | nil =>
    have hp : pat.isPrefixOf ([] : Str) = false := by
      cases pat with
      | nil => exact absurd rfl hne
      | cons a b => rfl
    simp [occPositions, hp]
  | cons c t ih =>
    cases i with
    | zero =>
      cases hp : pat.isPrefixOf (c :: t) <;>
        simp [occPositions, hp]
    | succ j =>
      have := ih j
      cases hp : pat.isPrefixOf (c :: t) <;>
        simp [occPositions, hp, this, List.drop_succ_cons]

theorem findSub_eq_some_of {pat s : Str} {n : Nat}
    (h1 : pat.isPrefixOf (s.drop n) = true)
    (h2 : ∀ j, j < n → pat.isPrefixOf (s.drop j) = false) :
    findSub s pat = some n := by
  induction s generalizing n with
  | nil =>
    cases n with
    | zero =>
      simp only [List.drop_nil] at h1
      simp [findSub, h1]
    | succ k =>
      have h0 := h2 0 (Nat.succ_pos k)
      simp only [List.drop_nil] at h0 h1
      rw [h1] at h0
      cases h0
  | cons c t ih =>
    cases n with
    | zero =>
      simp only [List.drop_zero] at h1
      simp [findSub, h1]
    | succ k =>
      have h0 := h2 0 (Nat.succ_pos k)
      simp only [List.drop_zero] at h0
      have hk : findSub t pat = some k := by
        apply ih
        · simpa [List.drop_succ_cons] using h1
        · intro j hj
          have := h2 (j + 1) (Nat.succ_lt_succ hj)
          simpa [List.drop_succ_cons] using this
      simp [findSub, h0, hk]

theorem pySplitA_skip (d : Str) (xs : Str) (acc : Str) (rest : Str) :
    pySplitA d xs.length acc (xs ++ rest) = pySplitA d 0 acc rest := by
  induction xs with
  | nil => rfl
  | cons c t ih => simpa [pySplitA] using ih

theorem pySplitA_no_occ {d s : Str}
    (h : ∀ i, d.isPrefixOf (s.drop i) = false) (acc : Str) :
    pySplitA d 0 acc s = [acc.reverse ++ s] := by
  induction s generalizing acc with
  | nil => simp [pySplitA]
  | cons c t ih =>
    have h0 := h 0
    simp only [List.drop_zero] at h0
    have ht : ∀ i, d.isPrefixOf (t.drop i) = false := fun i => by
      have := h (i + 1)
      simpa [List.drop_succ_cons] using this
    rw [show pySplitA d 0 acc (c :: t) =
      if d.isPrefixOf (c :: t) then acc.reverse :: pySplitA d (d.length - 1) [] t
      else pySplitA d 0 (c :: acc) t from rfl, h0]
    simp only [Bool.false_eq_true, if_false]
    rw [ih ht]
    simp

theorem pySplitA_hit {d : Str} (hd : d ≠ []) (u v : Str)
    (h : ∀ i, i < u.length → d.isPrefixOf ((u ++ d ++ v).drop i) = false)
    (acc : Str) :
    pySplitA d 0 acc (u ++ d ++ v) = (acc.reverse ++ u) :: pySplitA d 0 [] v := by
  induction u generalizing acc with
  | nil =>
    rw [List.nil_append]
    cases hdc : d with
    | nil => exact absurd hdc hd
    | cons a b =>
      have hp : (a :: b).isPrefixOf (a :: (b ++ v)) = true := by
        rw [← List.cons_append]
        exact List.isPrefixOf_iff_prefix.mpr (List.prefix_append _ v)
      rw [List.cons_append]
      rw [show pySplitA (a :: b) 0 acc (a :: (b ++ v)) =
        if (a :: b).isPrefixOf (a :: (b ++ v)) then
          acc.reverse :: pySplitA (a :: b) ((a :: b).length - 1) [] (b ++ v)
        else pySplitA (a :: b) 0 (a :: acc) (b ++ v) from rfl]
      rw [if_pos hp]
      simp only [List.length_cons, Nat.add_sub_cancel]
      rw [show (b ++ v : Str) = b ++ v from rfl, pySplitA_skip, List.append_nil]
  | cons c t ih =>
    have h0 : d.isPrefixOf (c :: (t ++ d ++ v)) = false := by
      have h' := h 0 (by simp)
      simp only [List.cons_append, List.drop_zero] at h'
      exact h'
    have hrec := ih (fun i hi => by
      have h' := h (i + 1) (by simp only [List.length_cons]; omega)
      simp only [List.cons_append, List.drop_succ_cons] at h'
      exact h') (c :: acc)
    rw [List.cons_append, List.cons_append]
    rw [show pySplitA d 0 acc (c :: (t ++ d ++ v)) =
      if d.isPrefixOf (c :: (t ++ d ++ v)) then
        acc.reverse :: pySplitA d (d.length - 1) [] (t ++ d ++ v)
      else pySplitA d 0 (c :: acc) (t ++ d ++ v) from rfl, h0]
    simp only [Bool.false_eq_true, if_false]
    rw [show (t : Str) ++ d ++ v = t ++ d ++ v from rfl] at hrec
    rw [hrec]
    simp

theorem drop_append_shift (a b : Str) (i : Nat) :
    (a ++ b).drop (a.length + i) = b.drop i := by
  rw [List.drop_append_eq_append_drop]
  have h1 : a.drop (a.length + i) = [] :=
    List.drop_eq_nil_of_le (Nat.le_add_right _ _)
  rw [h1, List.nil_append, Nat.add_sub_cancel_left]

theorem taskTypeOfValue_value (tt : TaskType) :
    taskTypeOfValue tt.value = some tt := by
  cases tt <;> rfl

/- ------------------------------------------------------------------
Infrastructure: the think-block scanner
------------------------------------------------------------------ -/

theorem isPrefixOf_cons_false {a c : Char} (as s : Str) (h : a ≠ c) :
    (a :: as).isPrefixOf (c :: s) = false := by
  have hb : (a == c) = false := by
    simp [h]
  simp [List.isPrefixOf, hb]

theorem noLt_cons {c : Char} {g : Str} (h : noLt (c :: g)) :
    c ≠ '<' ∧ noLt g := by
  constructor
  · intro he
    exact h (by rw [he]; exact List.mem_cons_self _ _)
  · intro hm
    exact h (List.mem_cons_of_mem _ hm)

theorem thinkOpen_not_prefix_of_gap {c : Char} (s : Str) (hc : c ≠ '<') :
    thinkOpen.isPrefixOf (c :: s) = false := by
  rw [show thinkOpen = '<' :: "think>".toList from rfl]
  exact isPrefixOf_cons_false _ _ (fun he => hc he.symm)

theorem thinkClose_not_prefix_of_gap {c : Char} (s : Str) (hc : c ≠ '<') :
    thinkClose.isPrefixOf (c :: s) = false := by
  rw [show thinkClose = '<' :: "/think>".toList from rfl]
  exact isPrefixOf_cons_false _ _ (fun he => hc he.symm)

theorem lt_t_not_prefix_close (xs rest : Str) :
    ('<' :: 't' :: xs).isPrefixOf ('<' :: '/' :: rest) = false := by
  have h1 : ('t' == '/') = false := by decide
  simp [List.isPrefixOf, h1]

theorem thinkOpen_not_prefix_close (rest : Str) :
    thinkOpen.isPrefixOf (thinkClose ++ rest) = false := by
  rw [show thinkOpen = '<' :: 't' :: "hink>".toList from rfl,
    show thinkClose ++ rest = '<' :: '/' :: ("think>".toList ++ rest) from rfl]
  exact lt_t_not_prefix_close _ _

/-- One step of `scanA` in outside mode on a cons cell. -/
theorem scanA_outside_cons (c : Char) (t : Str) :
    scanA 0 none (c :: t) =
      if thinkOpen.isPrefixOf (c :: t) then scanA (thinkOpen.length - 1) (some []) t
      else scanA 0 none t := rfl

/-- One step of `scanA` in inside mode on a cons cell. -/
theorem scanA_inside_cons (acc : Str) (c : Char) (t : Str) :
    scanA 0 (some acc) (c :: t) =
      if thinkClose.isPrefixOf (c :: t) then
        acc.reverse :: scanA (thinkClose.length - 1) none t
      else scanA 0 (some (c :: acc)) t := rfl

theorem scanA_skip (xs : Str) (m : Option Str) (rest : Str) :
    scanA xs.length m (xs ++ rest) = scanA 0 m rest := by
  induction xs with
  | nil => rfl
  | cons c t ih =>
    rw [List.cons_append, List.length_cons]
    exact ih

theorem scanA_gap {g : Str} (hg : noLt g) (rest : Str) :
    scanA 0 none (g ++ rest) = scanA 0 none rest := by
  induction g with
  | nil => rfl
  | cons c t ih =>
    obtain ⟨hc, ht⟩ := noLt_cons hg
    rw [List.cons_append, scanA_outside_cons,
      thinkOpen_not_prefix_of_gap _ hc]
    simp only [Bool.false_eq_true, if_false]
    exact ih ht

theorem scanA_inside {b : Str} (hb : noLt b) (acc rest : Str) :
    scanA 0 (some acc) (b ++ thinkClose ++ rest) =
      (acc.reverse ++ b) :: scanA 0 none rest := by
  induction b generalizing acc with
  | nil =>
    rw [List.nil_append,
      show thinkClose ++ rest = '<' :: ("/think>".toList ++ rest) from rfl,
      scanA_inside_cons]
    rw [show thinkClose.isPrefixOf ('<' :: ("/think>".toList ++ rest)) = true from by
      rw [show ('<' :: ("/think>".toList ++ rest) : Str) = thinkClose ++ rest from rfl]
      exact List.isPrefixOf_iff_prefix.mpr (List.prefix_append _ _)]
    rw [if_pos rfl]
    rw [show thinkClose.length - 1 = ("/think>".toList : Str).length from rfl, scanA_skip]
    simp
  | cons c t ih =>
    obtain ⟨hc, ht⟩ := noLt_cons hb
    rw [List.cons_append, List.cons_append, scanA_inside_cons,
      thinkClose_not_prefix_of_gap _ hc]
    simp only [Bool.false_eq_true, if_false]
    rw [ih ht (c :: acc)]
    simp

theorem scanA_block {b : Str} (hb : noLt b) (rest : Str) :
    scanA 0 none (wrapThink b ++ rest) = b :: scanA 0 none rest := by
  have hshape : wrapThink b ++ rest =
      '<' :: ("think>".toList ++ (b ++ thinkClose ++ rest)) := by
    simp [wrapThink, thinkOpen, List.append_assoc]
  rw [hshape, scanA_outside_cons]
  rw [show thinkOpen.isPrefixOf ('<' :: ("think>".toList ++ (b ++ thinkClose ++ rest))) = true
    from by
      rw [show ('<' :: ("think>".toList ++ (b ++ thinkClose ++ rest)) : Str) =
        thinkOpen ++ (b ++ thinkClose ++ rest) from rfl]
      exact List.isPrefixOf_iff_prefix.mpr (List.prefix_append _ _)]
  rw [if_pos rfl]
  rw [show thinkOpen.length - 1 = ("think>".toList : Str).length from rfl, scanA_skip]
  rw [scanA_inside hb]
  simp

theorem scanA_dead {v : Str} (hv : containsSub v thinkClose = false) (acc : Str) :
    scanA 0 (some acc) v = [] := by
  induction v generalizing acc with
  | nil => rfl
  | cons c t ih =>
    have h0 := containsSub_eq_false_iff.mp hv 0
    simp only [List.drop_zero] at h0
    have ht : containsSub t thinkClose = false :=
      containsSub_eq_false_iff.mpr (fun i => by
        have := containsSub_eq_false_iff.mp hv (i + 1)
        simpa using this)
    rw [scanA_inside_cons, h0]
    simp only [Bool.false_eq_true, if_false]
    exact ih ht (c :: acc)

/-- The scan of a structured suffix returns exactly the block bodies. -/
theorem scanThinks_tailStr {ps : List (Str × Str)} {g0 : Str} (hg0 : noLt g0)
    (hps : ∀ e ∈ ps, noLt e.1 ∧ noLt e.2) :
    scanThinks (g0 ++ tailStr ps) = ps.map Prod.fst := by
  induction ps generalizing g0 with
  | nil =>
    rw [show tailStr [] = [] from rfl, scanThinks, scanA_gap hg0]
    rfl
  | cons e t ih =>
    obtain ⟨b, g⟩ := e
    have hb : noLt b := (hps (b, g) (List.mem_cons_self _ _)).1
    have hg : noLt g := (hps (b, g) (List.mem_cons_self _ _)).2
    have ht : ∀ e ∈ t, noLt e.1 ∧ noLt e.2 :=
      fun e he => hps e (List.mem_cons_of_mem _ he)
    rw [scanThinks, show tailStr ((b, g) :: t) = wrapThink b ++ g ++ tailStr t from rfl]
    rw [show g0 ++ (wrapThink b ++ g ++ tailStr t) =
      g0 ++ (wrapThink b ++ (g ++ tailStr t)) from by rw [List.append_assoc]]
    rw [scanA_gap hg0, scanA_block hb]
    have := ih hg ht
    rw [scanThinks] at this
    rw [this]
    rfl

/-- A scan that enters a think block with no closing tag to its right
produces no matches at all (C4's complete-block hypothesis). -/
theorem scanThinks_unterminated {u v : Str} (hu : noLt u)
    (hv : containsSub v thinkClose = false) :
    scanThinks (u ++ thinkOpen ++ v) = [] := by
  rw [scanThinks, List.append_assoc, scanA_gap hu]
  rw [show thinkOpen ++ v = '<' :: ("think>".toList ++ v) from rfl, scanA_outside_cons]
  rw [show thinkOpen.isPrefixOf ('<' :: ("think>".toList ++ v)) = true from by
    rw [show ('<' :: ("think>".toList ++ v) : Str) = thinkOpen ++ v from rfl]
    exact List.isPrefixOf_iff_prefix.mpr (List.prefix_append _ _)]
  rw [if_pos rfl]
  rw [show thinkOpen.length - 1 = ("think>".toList : Str).length from rfl, scanA_skip]
  exact scanA_dead hv []

/- ------------------------------------------------------------------
Infrastructure: the incomplete-think-block search
------------------------------------------------------------------ -/

theorem lookaheadOk_cons (c : Char) (t : Str) :
    lookaheadOk (c :: t) =
      if thinkClose.isPrefixOf (c :: t) then true
      else if c = '<' then false else lookaheadOk t := rfl

/-- The lookahead succeeds on a `'<'`-free body followed by a closing tag. -/
theorem lookaheadOk_body {w : Str} (hw : noLt w) (rest : Str) :
    lookaheadOk (w ++ thinkClose ++ rest) = true := by
  induction w with
  | nil =>
    rw [List.nil_append,
      show thinkClose ++ rest = '<' :: ("/think>".toList ++ rest) from rfl,
      lookaheadOk_cons]
    rw [show thinkClose.isPrefixOf ('<' :: ("/think>".toList ++ rest)) = true from by
      rw [show ('<' :: ("/think>".toList ++ rest) : Str) = thinkClose ++ rest from rfl]
      exact List.isPrefixOf_iff_prefix.mpr (List.prefix_append _ _)]
    rw [if_pos rfl]
  | cons c t ih =>
    obtain ⟨hc, ht⟩ := noLt_cons hw
    rw [List.cons_append, List.cons_append, lookaheadOk_cons,
      thinkClose_not_prefix_of_gap _ hc]
    simp only [Bool.false_eq_true, if_false, hc, if_neg hc]
    exact ih ht

/-- The lookahead fails when no closing tag occurs at all. -/
theorem lookaheadOk_no_close {v : Str} (hv : containsSub v thinkClose = false) :
    lookaheadOk v = false := by
  induction v with
  | nil => rfl
  | cons c t ih =>
    have h0 := containsSub_eq_false_iff.mp hv 0
    simp only [List.drop_zero] at h0
    have ht : containsSub t thinkClose = false :=
      containsSub_eq_false_iff.mpr (fun i => by
        have := containsSub_eq_false_iff.mp hv (i + 1)
        simpa using this)
    rw [lookaheadOk_cons, h0]
    simp only [Bool.false_eq_true, if_false]
    by_cases hc : c = '<'
    · rw [if_pos hc]
    · rw [if_neg hc]
      exact ih ht

theorem incompleteStart_cons (c : Char) (t : Str) :
    incompleteStart (c :: t) =
      if thinkOpen.isPrefixOf (c :: t) && !lookaheadOk ((c :: t).drop thinkOpen.length)
      then some 0
      else (incompleteStart t).map (· + 1) := rfl

theorem incompleteStart_gap {u : Str} (hu : noLt u) (rest : Str) :
    incompleteStart (u ++ rest) = (incompleteStart rest).map (· + u.length) := by
  induction u with
  | nil =>
    simp
  | cons c t ih =>
    obtain ⟨hc, ht⟩ := noLt_cons hu
    rw [List.cons_append, incompleteStart_cons,
      thinkOpen_not_prefix_of_gap _ hc]
    simp only [Bool.false_and, Bool.false_eq_true, if_false]
    rw [ih ht]
    cases incompleteStart rest with
    | none => rfl
    | some j =>
      simp [List.length_cons]
      omega

/-- Walking over a complete think block with a `'<'`-free body: the search
does not fire inside it. -/
theorem incompleteStart_block {b : Str} (hb : noLt b) (rest : Str) :
    incompleteStart (wrapThink b ++ rest) =
      (incompleteStart rest).map (· + (wrapThink b).length) := by
  have hshape : wrapThink b ++ rest =
      '<' :: ("think>".toList ++ (b ++ (thinkClose ++ rest))) := by
    simp [wrapThink, thinkOpen, List.append_assoc]
  rw [hshape, incompleteStart_cons]
  have hpre : thinkOpen.isPrefixOf
      ('<' :: ("think>".toList ++ (b ++ (thinkClose ++ rest)))) = true := by
    rw [show ('<' :: ("think>".toList ++ (b ++ (thinkClose ++ rest))) : Str) =
      thinkOpen ++ (b ++ (thinkClose ++ rest)) from rfl]
    exact List.isPrefixOf_iff_prefix.mpr (List.prefix_append _ _)
  have hdrop : ('<' :: ("think>".toList ++ (b ++ (thinkClose ++ rest)))).drop
      thinkOpen.length = b ++ thinkClose ++ rest := by
    rw [show ('<' :: ("think>".toList ++ (b ++ (thinkClose ++ rest))) : Str) =
      thinkOpen ++ (b ++ (thinkClose ++ rest)) from rfl,
      show thinkOpen.length = List.length thinkOpen from rfl, List.drop_left,
      List.append_assoc]
  rw [hpre, hdrop, lookaheadOk_body hb]
  simp only [Bool.not_true, Bool.and_false, Bool.false_eq_true, if_false]
  rw [show ("think>".toList ++ (b ++ (thinkClose ++ rest)) : Str) =
    "think>".toList ++ (b ++ (thinkClose ++ rest)) from rfl]
  have hgap1 : noLt ("think>".toList : Str) := by decide
  have hgap2 : noLt ("/think>".toList : Str) := by decide
  rw [incompleteStart_gap hgap1, incompleteStart_gap hb]
  rw [show thinkClose ++ rest = '<' :: ("/think>".toList ++ rest) from rfl,
    incompleteStart_cons]
  have hnopen : thinkOpen.isPrefixOf ('<' :: ("/think>".toList ++ rest)) = false := by
    rw [show ('<' :: ("/think>".toList ++ rest) : Str) = thinkClose ++ rest from rfl]
    exact thinkOpen_not_prefix_close rest
  rw [hnopen]
  simp only [Bool.false_and, Bool.false_eq_true, if_false]
  rw [incompleteStart_gap hgap2]
  cases incompleteStart rest with
  | none => rfl
  | some j =>
    simp [wrapThink, thinkOpen, thinkClose, List.length_append]
    omega

/-- Over a structured suffix of complete blocks and `'<'`-free gaps the
incomplete-block search finds nothing. -/
theorem incompleteStart_segs {l : List (Option Str × Str)}
    (hl : ∀ p ∈ l, (∀ b, p.1 = some b → noLt b) ∧ noLt p.2) :
    incompleteStart (segsStr l) = none := by
  induction l with
  | nil => rfl
  | cons p t ih =>
    obtain ⟨ob, g⟩ := p
    have hg : noLt g := (hl (ob, g) (List.mem_cons_self _ _)).2
    have ht : ∀ p ∈ t, (∀ b, p.1 = some b → noLt b) ∧ noLt p.2 :=
      fun p hp => hl p (List.mem_cons_of_mem _ hp)
    cases ob with
    | none =>
      rw [show segsStr ((none, g) :: t) = g ++ segsStr t from rfl,
        incompleteStart_gap hg, ih ht]
      rfl
    | some b =>
      have hb : noLt b := (hl (some b, g) (List.mem_cons_self _ _)).1 b rfl
      rw [show segsStr ((some b, g) :: t) = wrapThink b ++ g ++ segsStr t from rfl,
        List.append_assoc, incompleteStart_block hb, incompleteStart_gap hg, ih ht]
      rfl

/-- C4's core: an opening tag with no closing tag to its right is found at
exactly the position after the `'<'`-free prefix. -/
theorem incompleteStart_unterminated {u v : Str} (hu : noLt u)
    (hv : containsSub v thinkClose = false) :
    incompleteStart (u ++ thinkOpen ++ v) = some u.length := by
  rw [List.append_assoc, incompleteStart_gap hu]
  rw [show thinkOpen ++ v = '<' :: ("think>".toList ++ v) from rfl,
    incompleteStart_cons]
  have hpre : thinkOpen.isPrefixOf ('<' :: ("think>".toList ++ v)) = true := by
    rw [show ('<' :: ("think>".toList ++ v) : Str) = thinkOpen ++ v from rfl]
    exact List.isPrefixOf_iff_prefix.mpr (List.prefix_append _ _)
  have hdrop : ('<' :: ("think>".toList ++ v)).drop thinkOpen.length = v := by
    rw [show ('<' :: ("think>".toList ++ v) : Str) = thinkOpen ++ v from rfl,
      show thinkOpen.length = List.length thinkOpen from rfl, List.drop_left]
  rw [hpre, hdrop, lookaheadOk_no_close hv]
  simp

/-- Shared assembly fact: positioning of the first "assistant" in a
structured observation. -/
theorem findSub_asst (pre suffix : Str) (hpre : containsSub pre asstTok = false) :
    findSub (pre ++ asstTok ++ suffix) asstTok = some pre.length := by
  have hbf : borderFree asstTok = true := by decide
  exact findSub_append_first pre suffix (no_occ_before suffix hbf hpre)

theorem take_marker (pre suffix : Str) :
    (pre ++ asstTok ++ suffix).take (pre.length + asstTok.length) = pre ++ asstTok := by
  rw [show pre.length + asstTok.length = (pre ++ asstTok).length from
    (List.length_append _ _).symm]
  exact List.take_left _ _

theorem drop_marker (pre suffix : Str) :
    (pre ++ asstTok ++ suffix).drop (pre.length + asstTok.length) = suffix := by
  rw [show pre.length + asstTok.length = (pre ++ asstTok).length from
    (List.length_append _ _).symm]
  exact List.drop_left _ _

/- ------------------------------------------------------------------
Infrastructure: the python-block scanner (no DOTALL)
------------------------------------------------------------------ -/

theorem pyScanA_outside_cons (c : Char) (t : Str) :
    pyScanA 0 (c :: t) =
      if pyOpenTag.isPrefixOf (c :: t) then
        match lineBody ((c :: t).drop pyOpenTag.length) with
        | some body =>
          body :: pyScanA (pyOpenTag.length + body.length + pyCloseTag.length - 1) t
        | none => pyScanA 0 t
      else pyScanA 0 t := rfl

theorem pyScanA_skip (xs rest : Str) :
    pyScanA xs.length (xs ++ rest) = pyScanA 0 rest := by
  induction xs with
  | nil => rfl
  | cons c t ih =>
    rw [List.cons_append, List.length_cons]
    exact ih

theorem pyScanA_gap {a : Str} (rest : Str)
    (h : ∀ i, i < a.length → pyOpenTag.isPrefixOf ((a ++ rest).drop i) = false) :
    pyScanA 0 (a ++ rest) = pyScanA 0 rest := by
  induction a with
  | nil => rfl
  | cons c t ih =>
    have h0 : pyOpenTag.isPrefixOf (c :: (t ++ rest)) = false := by
      have h' := h 0 (by simp)
      simp only [List.cons_append, List.drop_zero] at h'
      exact h'
    rw [List.cons_append, pyScanA_outside_cons, h0]
    simp only [Bool.false_eq_true, if_false]
    exact ih (fun i hi => by
      have h' := h (i + 1) (by simp only [List.length_cons]; omega)
      simp only [List.cons_append, List.drop_succ_cons] at h'
      exact h')

theorem pyScanA_no_open {s : Str}
    (h : ∀ i, pyOpenTag.isPrefixOf (s.drop i) = false) :
    pyScanA 0 s = [] := by
  induction s with
  | nil => rfl
  | cons c t ih =>
    have h0 := h 0
    simp only [List.drop_zero] at h0
    rw [pyScanA_outside_cons, h0]
    simp only [Bool.false_eq_true, if_false]
    exact ih (fun i => by
      have := h (i + 1)
      simpa using this)

theorem lineBody_cons (c : Char) (t : Str) :
    lineBody (c :: t) =
      if pyCloseTag.isPrefixOf (c :: t) then some []
      else if c = '\n' then none
      else (lineBody t).map (c :: ·) := rfl

theorem lineBody_closed {b : Str} (cc : Str) (hnl : '\n' ∉ b)
    (h : ∀ i, i < b.length → pyCloseTag.isPrefixOf ((b ++ pyCloseTag ++ cc).drop i) = false) :
    lineBody (b ++ pyCloseTag ++ cc) = some b := by
  induction b with
  | nil =>
    rw [List.nil_append,
      show pyCloseTag ++ cc = '<' :: ("/python>".toList ++ cc) from rfl, lineBody_cons]
    rw [show pyCloseTag.isPrefixOf ('<' :: ("/python>".toList ++ cc)) = true from by
      rw [show ('<' :: ("/python>".toList ++ cc) : Str) = pyCloseTag ++ cc from rfl]
      exact List.isPrefixOf_iff_prefix.mpr (List.prefix_append _ _)]
    rw [if_pos rfl]
  | cons c t ih =>
    have hc : c ≠ '\n' := fun he => hnl (by rw [← he]; exact List.mem_cons_self _ _)
    have ht : '\n' ∉ t := fun hm => hnl (List.mem_cons_of_mem _ hm)
    have h0 : pyCloseTag.isPrefixOf (c :: (t ++ pyCloseTag ++ cc)) = false := by
      have h' := h 0 (by simp)
      simp only [List.cons_append, List.drop_zero] at h'
      exact h'
    rw [List.cons_append, List.cons_append, lineBody_cons, h0]
    simp only [Bool.false_eq_true, if_false, if_neg hc]
    rw [ih ht (fun i hi => by
      have h' := h (i + 1) (by simp only [List.length_cons]; omega)
      simp only [List.cons_append, List.drop_succ_cons] at h'
      exact h')]
    rfl

theorem pyScanA_block {b : Str} (cc : Str) (hnl : '\n' ∉ b)
    (h : ∀ i, i < b.length → pyCloseTag.isPrefixOf ((b ++ pyCloseTag ++ cc).drop i) = false) :
    pyScanA 0 (pyOpenTag ++ b ++ pyCloseTag ++ cc) = b :: pyScanA 0 cc := by
  have hshape : pyOpenTag ++ b ++ pyCloseTag ++ cc =
      '<' :: ("python>".toList ++ (b ++ pyCloseTag ++ cc)) := by
    simp [pyOpenTag, List.append_assoc]
  rw [hshape, pyScanA_outside_cons]
  have hpre : pyOpenTag.isPrefixOf
      ('<' :: ("python>".toList ++ (b ++ pyCloseTag ++ cc))) = true := by
    rw [show ('<' :: ("python>".toList ++ (b ++ pyCloseTag ++ cc)) : Str) =
      pyOpenTag ++ (b ++ pyCloseTag ++ cc) from rfl]
    exact List.isPrefixOf_iff_prefix.mpr (List.prefix_append _ _)
  have hdrop : ('<' :: ("python>".toList ++ (b ++ pyCloseTag ++ cc))).drop
      pyOpenTag.length = b ++ pyCloseTag ++ cc := by
    rw [show ('<' :: ("python>".toList ++ (b ++ pyCloseTag ++ cc)) : Str) =
      pyOpenTag ++ (b ++ pyCloseTag ++ cc) from rfl,
      show pyOpenTag.length = List.length pyOpenTag from rfl, List.drop_left]
  rw [hpre, if_pos rfl, hdrop]
  simp only [lineBody_closed cc hnl h]
  have hskip : pyOpenTag.length + b.length + pyCloseTag.length - 1 =
      ("python>".toList ++ b ++ pyCloseTag : Str).length := by
    have h8 : pyOpenTag.length = 8 := by decide
    have h9 : pyCloseTag.length = 9 := by decide
    have h7 : ("python>".toList : Str).length = 7 := by decide
    simp [List.length_append, h8, h9, h7]
    omega
  rw [hskip,
    show ("python>".toList ++ (b ++ pyCloseTag ++ cc) : Str) =
      ("python>".toList ++ b ++ pyCloseTag) ++ cc from by
        simp [List.append_assoc], pyScanA_skip]

/-- C9 counterexample: `re.findall(r"<python>(.*?)</python>", s)` is compiled
WITHOUT `re.DOTALL`, so `.` does not match a newline: the region
`<python>a\nb</python>` is a `<python>...</python>` region with a (non-greedy)
body, yet `extract_python_blocks` returns the empty string instead of the
re-wrapped region. -/
theorem c9_newline_body_counterexample :
    extract_python_blocks "<python>a\nb</python>".toList = [] ∧
      extract_python_blocks "<python>a\nb</python>".toList ≠
        "<python>a\nb</python>".toList := by
  exact ⟨by decide, by decide⟩

/-- C9 amended: `extract_python_blocks` returns, in document order and
re-wrapped and newline-joined, exactly the `<python>...</python>` regions
whose body contains no newline; it returns the empty string when no
opening tag occurs.  Stated structurally: with no opening tag in `a`, a
newline-free and closing-tag-free body `b`, the first returned block is `b`
and the scan continues after the closing tag; with no opening tag at all
the result is empty. -/
theorem c9_python_blocks_structure (a b cc : Str)
    (ha : containsSub a pyOpenTag = false)
    (hnl : '\n' ∉ b)
    (hb : containsSub b pyCloseTag = false) :
    extract_python_blocks (a ++ pyOpenTag ++ b ++ pyCloseTag ++ cc) =
        joinNewline ((b :: findPythonBlocks cc).map
          (fun block => pyOpenTag ++ block ++ pyCloseTag)) ∧
      extract_python_blocks a = [] := by
  have hbfO : borderFree pyOpenTag = true := by decide
  have hbfC : borderFree pyCloseTag = true := by decide
  constructor
  · have hshape : a ++ pyOpenTag ++ b ++ pyCloseTag ++ cc =
        a ++ (pyOpenTag ++ (b ++ pyCloseTag ++ cc)) := by
      simp [List.append_assoc]
    have hgap : ∀ i, i < a.length →
        pyOpenTag.isPrefixOf ((a ++ (pyOpenTag ++ (b ++ pyCloseTag ++ cc))).drop i) = false := by
      intro i hi
      have := no_occ_before (b ++ pyCloseTag ++ cc) hbfO ha i hi
      rw [List.append_assoc] at this
      exact this
    have hclose : ∀ i, i < b.length →
        pyCloseTag.isPrefixOf ((b ++ pyCloseTag ++ cc).drop i) = false :=
      fun i hi => no_occ_before cc hbfC hb i hi
    rw [extract_python_blocks, findPythonBlocks, hshape, pyScanA_gap _ hgap,
      show pyOpenTag ++ (b ++ pyCloseTag ++ cc) = pyOpenTag ++ b ++ pyCloseTag ++ cc
        from by simp [List.append_assoc],
      pyScanA_block cc hnl hclose]
    rfl
  · have hnone : ∀ i, pyOpenTag.isPrefixOf (a.drop i) = false :=
      containsSub_eq_false_iff.mp ha
    rw [extract_python_blocks, findPythonBlocks, pyScanA_no_open hnone]
    rfl

/-- Witness for C9 (amended) at a concrete observation with a second block
after the structured one. -/
theorem c9_python_blocks_structure_witness :
    containsSub "say ".toList pyOpenTag = false ∧
      '\n' ∉ "pr(1)".toList ∧
      containsSub "pr(1)".toList pyCloseTag = false ∧
      extract_python_blocks
          ("say ".toList ++ pyOpenTag ++ "pr(1)".toList ++ pyCloseTag ++
            "t<python>q</python>".toList) =
        joinNewline (("pr(1)".toList :: findPythonBlocks "t<python>q</python>".toList).map
          (fun block => pyOpenTag ++ block ++ pyCloseTag)) :=
  ⟨by decide, by decide, by decide,
    (c9_python_blocks_structure _ _ _ (by decide) (by decide) (by decide)).1⟩

/- ------------------------------------------------------------------
Infrastructure: pyStrip
------------------------------------------------------------------ -/

theorem pyStrip_infix_self (s : Str) : pyStrip s <:+: s := by
  have h1 : s.dropWhile isPySpace <:+ s := List.dropWhile_suffix _
  have h3 : (s.dropWhile isPySpace).reverse.dropWhile isPySpace <:+
      (s.dropWhile isPySpace).reverse := List.dropWhile_suffix _
  have h4 : pyStrip s <+: s.dropWhile isPySpace := by
    have h5 := List.reverse_prefix.mpr h3
    rw [List.reverse_reverse] at h5
    exact h5
  exact h4.isInfix.trans h1.isInfix

theorem containsSub_mono {x y pat : Str} (hxy : x <:+: y)
    (h : containsSub x pat = true) : containsSub y pat = true :=
  containsSub_infix_iff.mpr ((containsSub_infix_iff.mp h).trans hxy)

theorem pyStrip_contains_false {s pat : Str} (h : containsSub s pat = false) :
    containsSub (pyStrip s) pat = false := by
  cases hc : containsSub (pyStrip s) pat with
  | false => rfl
  | true =>
    rw [containsSub_mono (pyStrip_infix_self s) hc] at h
    cases h

theorem pyStrip_eq_self_parts {s : Str} (h : pyStrip s = s) :
    s.dropWhile isPySpace = s ∧ s.reverse.dropWhile isPySpace = s.reverse := by
  have h1 : s.dropWhile isPySpace <:+ s := List.dropWhile_suffix _
  have h3 : (s.dropWhile isPySpace).reverse.dropWhile isPySpace <:+
      (s.dropWhile isPySpace).reverse := List.dropWhile_suffix _
  have hl3 := h3.length_le
  have hlps : (pyStrip s).length = s.length := by rw [h]
  have hstep : (pyStrip s).length ≤ (s.dropWhile isPySpace).length := by
    rw [pyStrip, List.length_reverse]
    simpa using hl3
  have hl1 := h1.length_le
  have heq1 : (s.dropWhile isPySpace).length = s.length := by omega
  have hd1 : s.dropWhile isPySpace = s := h1.eq_of_length heq1
  refine ⟨hd1, ?_⟩
  have h2 : pyStrip s = (s.reverse.dropWhile isPySpace).reverse := by
    rw [pyStrip, hd1]
  have : (s.reverse.dropWhile isPySpace).reverse = s := by rw [← h2, h]
  have := congrArg List.reverse this
  rw [List.reverse_reverse] at this
  rw [this]

theorem dropWhile_imEnd_append (w : Str) :
    (imEndTok ++ w).dropWhile isPySpace = imEndTok ++ w := by
  rw [List.dropWhile_append]
  rw [show imEndTok.dropWhile isPySpace = imEndTok from by decide]
  rw [show (imEndTok : Str).isEmpty = false from by decide]
  simp

theorem dropWhile_imEnd_rev_append (w : Str) :
    (imEndTok.reverse ++ w).dropWhile isPySpace = imEndTok.reverse ++ w := by
  rw [List.dropWhile_append]
  rw [show imEndTok.reverse.dropWhile isPySpace = imEndTok.reverse from by decide]
  rw [show (imEndTok.reverse : Str).isEmpty = false from by decide]
  simp

/-- Stripping a pre-stripped user question followed by the end-of-turn
marker and arbitrary trailing text only strips the far right end. -/
theorem pyStrip_mid {s : Str} (h : pyStrip s = s) (w : Str) :
    pyStrip (s ++ imEndTok ++ w) =
      s ++ imEndTok ++ (w.reverse.dropWhile isPySpace).reverse := by
  obtain ⟨hL, hR⟩ := pyStrip_eq_self_parts h
  have hLs : (s ++ imEndTok ++ w).dropWhile isPySpace = s ++ imEndTok ++ w := by
    rw [List.append_assoc, List.dropWhile_append, hL]
    cases hse : s with
    | nil =>
      simp only [List.isEmpty_nil, if_true]
      rw [dropWhile_imEnd_append]
      simp
    | cons c t =>
      simp only [List.isEmpty_cons, Bool.false_eq_true, if_false]
  rw [pyStrip, hLs]
  have hrev : (s ++ imEndTok ++ w).reverse =
      w.reverse ++ (imEndTok.reverse ++ s.reverse) := by
    simp [List.reverse_append, List.append_assoc]
  rw [hrev, List.dropWhile_append]
  cases hwe : (w.reverse.dropWhile isPySpace).isEmpty with
  | true =>
    simp only [if_true]
    rw [dropWhile_imEnd_rev_append]
    rw [List.isEmpty_iff] at hwe
    rw [hwe]
    simp [List.reverse_append]
  | false =>
    simp only [Bool.false_eq_true, if_false]
    simp [List.reverse_append, List.append_assoc]

/-- C5 counterexample: the claim says `extract_question` returns the most
recent user-role segment immediately followed by an assistant marker.  The
code indexes `split("<|im_start|>user")[1]`: with two user turns it returns
the FIRST segment ("A"), not the most recent one ("B"). -/
theorem c5_most_recent_counterexample :
    extract_question
        ("<|im_start|>user A<|im_end|><|im_start|>assistant x" ++
          "<|im_start|>user B<|im_end|><|im_start|>assistant").toList =
        .ok "A".toList ∧
      extract_question
          ("<|im_start|>user A<|im_end|><|im_start|>assistant x" ++
            "<|im_start|>user B<|im_end|><|im_start|>assistant").toList ≠
        .ok "B".toList := by
  exact ⟨by decide, by decide⟩

/-- C5 amended: `extract_question` returns the trimmed text of the FIRST
user-role segment, truncated at the first assistant marker within it and at
the first end-of-turn marker when one is present.  First conjunct: no
end-of-turn marker in the segment; second conjunct: the segment carries an
end-of-turn marker followed by arbitrary trailing text. -/
theorem c5_first_segment_extraction :
    (∀ p s r : Str,
        containsSub p imStartUser = false →
        containsSub (s ++ imStartAsst ++ r) imStartUser = false →
        containsSub s imStartAsst = false →
        containsSub s imEndTok = false →
        extract_question (p ++ imStartUser ++ (s ++ imStartAsst ++ r)) =
          .ok (pyStrip s)) ∧
      (∀ p s w r : Str,
        containsSub p imStartUser = false →
        containsSub (s ++ imEndTok ++ w ++ imStartAsst ++ r) imStartUser = false →
        containsSub (s ++ imEndTok ++ w) imStartAsst = false →
        containsSub s imEndTok = false →
        pyStrip s = s →
        extract_question (p ++ imStartUser ++ (s ++ imEndTok ++ w ++ imStartAsst ++ r)) =
          .ok s) := by
  have hbfU : borderFree imStartUser = true := by decide
  have hbfA : borderFree imStartAsst = true := by decide
  have hbfE : borderFree imEndTok = true := by decide
  constructor
  · intro p s r hp hrest hsA hsE
    have hcu : containsSub (p ++ imStartUser ++ (s ++ imStartAsst ++ r)) imStartUser = true :=
      containsSub_wrap _ _ _
    have hca : containsSub (p ++ imStartUser ++ (s ++ imStartAsst ++ r)) imStartAsst = true := by
      rw [containsSub_infix_iff]
      exact ⟨p ++ imStartUser ++ s, r, by simp [List.append_assoc]⟩
    have hdp : dropPastFirst imStartUser (p ++ imStartUser ++ (s ++ imStartAsst ++ r)) =
        s ++ imStartAsst ++ r :=
      dropPastFirst_append_first p _ (no_occ_before _ hbfU hp)
    have htu : takeUntilFirst imStartUser (s ++ imStartAsst ++ r) = s ++ imStartAsst ++ r :=
      takeUntilFirst_of_not_contains hrest
    have hta : takeUntilFirst imStartAsst (s ++ imStartAsst ++ r) = s :=
      takeUntilFirst_append_first s r (no_occ_before _ hbfA hsA)
    have hnoE : containsSub (pyStrip s) imEndTok = false := pyStrip_contains_false hsE
    rw [extract_question, if_pos hcu, if_pos hca, hdp, htu]
    simp only [hta, hnoE, Bool.false_eq_true, if_false]
  · intro p s w r hp hrest hsA hsE hstr
    have hsh1 : s ++ imEndTok ++ w ++ imStartAsst ++ r =
        (s ++ imEndTok ++ w) ++ imStartAsst ++ r := by
      simp [List.append_assoc]
    have hcu : containsSub (p ++ imStartUser ++ (s ++ imEndTok ++ w ++ imStartAsst ++ r))
        imStartUser = true := containsSub_wrap _ _ _
    have hca : containsSub (p ++ imStartUser ++ (s ++ imEndTok ++ w ++ imStartAsst ++ r))
        imStartAsst = true := by
      rw [containsSub_infix_iff]
      exact ⟨p ++ imStartUser ++ (s ++ imEndTok ++ w), r, by simp [List.append_assoc]⟩
    have hdp : dropPastFirst imStartUser
        (p ++ imStartUser ++ (s ++ imEndTok ++ w ++ imStartAsst ++ r)) =
        s ++ imEndTok ++ w ++ imStartAsst ++ r :=
      dropPastFirst_append_first p _ (no_occ_before _ hbfU hp)
    have htu : takeUntilFirst imStartUser (s ++ imEndTok ++ w ++ imStartAsst ++ r) =
        s ++ imEndTok ++ w ++ imStartAsst ++ r :=
      takeUntilFirst_of_not_contains hrest
    have hta : takeUntilFirst imStartAsst (s ++ imEndTok ++ w ++ imStartAsst ++ r) =
        s ++ imEndTok ++ w := by
      rw [hsh1]
      exact takeUntilFirst_append_first _ r (no_occ_before _ hbfA hsA)
    have hmid := pyStrip_mid hstr w
    have hcE : containsSub (s ++ imEndTok ++ (w.reverse.dropWhile isPySpace).reverse)
        imEndTok = true := containsSub_wrap _ _ _
    have htE : takeUntilFirst imEndTok
        (s ++ imEndTok ++ (w.reverse.dropWhile isPySpace).reverse) = s :=
      takeUntilFirst_append_first s _ (no_occ_before _ hbfE hsE)
    rw [extract_question, if_pos hcu, if_pos hca, hdp, htu]
    simp only [hta, hmid, hcE, if_true]
    rw [htE, hstr]

/-- Witness for C5 (amended), both conjuncts at concrete transcripts. -/
theorem c5_first_segment_extraction_witness :
    extract_question ("sys".toList ++ imStartUser ++
        (" What? ".toList ++ imStartAsst ++ " done".toList)) =
      .ok (pyStrip " What? ".toList) ∧
    extract_question ("sys".toList ++ imStartUser ++
        ("Q2".toList ++ imEndTok ++ " tail".toList ++ imStartAsst ++ " done".toList)) =
      .ok "Q2".toList :=
  ⟨c5_first_segment_extraction.1 "sys".toList " What? ".toList " done".toList
      (by decide) (by decide) (by decide) (by decide),
    c5_first_segment_extraction.2 "sys".toList "Q2".toList " tail".toList " done".toList
      (by decide) (by decide) (by decide) (by decide) (by decide)⟩

/- ------------------------------------------------------------------
Infrastructure: removing wrapped think blocks by first occurrence
------------------------------------------------------------------ -/

theorem wrapThink_cons (w : Str) :
    wrapThink w = '<' :: ("think>".toList ++ w ++ thinkClose) := rfl

/-- Two `'<'`-free bodies followed by closing tags can only align when they
are equal: the `'<'` of the closing tag pins the boundary. -/
theorem close_prefix_eq {w b : Str} (hw : noLt w) (hb : noLt b) {v : Str}
    (h : (w ++ thinkClose) <+: (b ++ thinkClose ++ v)) : w = b := by
  induction w generalizing b with
  | nil =>
    cases b with
    | nil => rfl
    | cons cb b' =>
      exfalso
      simp only [List.nil_append, List.cons_append] at h
      rw [show (thinkClose : Str) = '<' :: "/think>".toList from rfl,
        List.cons_prefix_cons] at h
      exact (noLt_cons hb).1 h.1.symm
  | cons c w' ih =>
    cases b with
    | nil =>
      exfalso
      simp only [List.nil_append, List.cons_append] at h
      rw [show (thinkClose ++ v : Str) = '<' :: ("/think>".toList ++ v) from rfl,
        List.cons_prefix_cons] at h
      exact (noLt_cons hw).1 h.1
    | cons cb b' =>
      simp only [List.cons_append] at h
      rw [List.cons_prefix_cons] at h
      rw [h.1, ih (noLt_cons hw).2 (noLt_cons hb).2 h.2]

theorem wrapThink_prefix_false {rb wb : Str} (hrb : noLt rb) (hwb : noLt wb)
    (hne : rb ≠ wb) (rest : Str) :
    (wrapThink rb).isPrefixOf (wrapThink wb ++ rest) = false := by
  cases hq : (wrapThink rb).isPrefixOf (wrapThink wb ++ rest) with
  | false => rfl
  | true =>
    exfalso
    have hpre := List.isPrefixOf_iff_prefix.mp hq
    have hsh1 : wrapThink rb = thinkOpen ++ (rb ++ thinkClose) := by
      rw [wrapThink, List.append_assoc]
    have hsh2 : wrapThink wb ++ rest = thinkOpen ++ (wb ++ thinkClose ++ rest) := by
      rw [wrapThink]
      simp [List.append_assoc]
    rw [hsh1, hsh2, List.prefix_append_right_inj] at hpre
    exact hne (close_prefix_eq hrb hwb hpre)

theorem removeFirst_prefix_hit {pat : Str} (hne : pat ≠ []) (rest : Str) :
    removeFirst pat (pat ++ rest) = rest := by
  cases hp : pat with
  | nil => exact absurd hp hne
  | cons a p' =>
    have hpre : (a :: p').isPrefixOf (a :: (p' ++ rest)) = true := by
      rw [← List.cons_append]
      exact List.isPrefixOf_iff_prefix.mpr (List.prefix_append _ _)
    rw [List.cons_append,
      show removeFirst (a :: p') (a :: (p' ++ rest)) =
        if (a :: p').isPrefixOf (a :: (p' ++ rest)) then
          (a :: (p' ++ rest)).drop (a :: p').length
        else a :: removeFirst (a :: p') (p' ++ rest) from rfl,
      if_pos hpre, ← List.cons_append, List.drop_left]

theorem removeFirst_wrap_hit (w : Str) (rest : Str) :
    removeFirst (wrapThink w) (wrapThink w ++ rest) = rest :=
  removeFirst_prefix_hit (by rw [wrapThink_cons]; exact List.cons_ne_nil _ _) rest

theorem removeFirst_wrap_gap (rb : Str) {g : Str} (hg : noLt g) (rest : Str) :
    removeFirst (wrapThink rb) (g ++ rest) = g ++ removeFirst (wrapThink rb) rest := by
  induction g with
  | nil => simp
  | cons c t ih =>
    obtain ⟨hc, ht⟩ := noLt_cons hg
    have hpf : (wrapThink rb).isPrefixOf (c :: (t ++ rest)) = false := by
      rw [wrapThink_cons]
      exact isPrefixOf_cons_false _ _ (fun he => hc he.symm)
    rw [List.cons_append,
      show removeFirst (wrapThink rb) (c :: (t ++ rest)) =
        if (wrapThink rb).isPrefixOf (c :: (t ++ rest)) then
          (c :: (t ++ rest)).drop (wrapThink rb).length
        else c :: removeFirst (wrapThink rb) (t ++ rest) from rfl,
      hpf]
    simp only [Bool.false_eq_true, if_false]
    rw [ih ht, List.cons_append]

theorem wrap_not_prefix_close (rb : Str) (rest : Str) :
    (wrapThink rb).isPrefixOf (thinkClose ++ rest) = false := by
  rw [show wrapThink rb = '<' :: 't' :: ("hink>".toList ++ rb ++ thinkClose) from rfl,
    show thinkClose ++ rest = '<' :: '/' :: ("think>".toList ++ rest) from rfl]
  exact lt_t_not_prefix_close _ _

theorem removeFirst_wrap_skip {rb wb : Str} (hrb : noLt rb) (hwb : noLt wb)
    (hne : rb ≠ wb) (rest : Str) :
    removeFirst (wrapThink rb) (wrapThink wb ++ rest) =
      wrapThink wb ++ removeFirst (wrapThink rb) rest := by
  have hcons : wrapThink wb ++ rest =
      '<' :: (("think>".toList ++ wb ++ thinkClose) ++ rest) := by
    rw [wrapThink_cons, List.cons_append]
  have hpf : (wrapThink rb).isPrefixOf
      ('<' :: (("think>".toList ++ wb ++ thinkClose) ++ rest)) = false := by
    rw [← hcons]
    exact wrapThink_prefix_false hrb hwb hne rest
  rw [hcons,
    show removeFirst (wrapThink rb) ('<' :: (("think>".toList ++ wb ++ thinkClose) ++ rest)) =
      if (wrapThink rb).isPrefixOf ('<' :: (("think>".toList ++ wb ++ thinkClose) ++ rest)) then
        ('<' :: (("think>".toList ++ wb ++ thinkClose) ++ rest)).drop (wrapThink rb).length
      else '<' :: removeFirst (wrapThink rb) (("think>".toList ++ wb ++ thinkClose) ++ rest)
      from rfl,
    hpf]
  simp only [Bool.false_eq_true, if_false]
  have hg1 : noLt ("think>".toList : Str) := by decide
  have hg2 : noLt ("/think>".toList : Str) := by decide
  rw [show (("think>".toList ++ wb ++ thinkClose) ++ rest : Str) =
    "think>".toList ++ (wb ++ (thinkClose ++ rest)) from by simp [List.append_assoc],
    removeFirst_wrap_gap rb hg1, removeFirst_wrap_gap rb hwb]
  have hclose : removeFirst (wrapThink rb) (thinkClose ++ rest) =
      thinkClose ++ removeFirst (wrapThink rb) rest := by
    rw [show thinkClose ++ rest = '<' :: ("/think>".toList ++ rest) from rfl,
      show removeFirst (wrapThink rb) ('<' :: ("/think>".toList ++ rest)) =
        if (wrapThink rb).isPrefixOf ('<' :: ("/think>".toList ++ rest)) then
          ('<' :: ("/think>".toList ++ rest)).drop (wrapThink rb).length
        else '<' :: removeFirst (wrapThink rb) ("/think>".toList ++ rest) from rfl,
      show (wrapThink rb).isPrefixOf ('<' :: ("/think>".toList ++ rest)) = false from by
        rw [show ('<' :: ("/think>".toList ++ rest) : Str) = thinkClose ++ rest from rfl]
        exact wrap_not_prefix_close rb rest]
    simp only [Bool.false_eq_true, if_false]
    rw [removeFirst_wrap_gap rb hg2,
      show ('<' :: ("/think>".toList ++ removeFirst (wrapThink rb) rest) : Str) =
        thinkClose ++ removeFirst (wrapThink rb) rest from rfl]
  rw [hclose]
  show ('<' :: 't' :: 'h' :: 'i' :: 'n' :: 'k' :: '>' ::
      (wb ++ (thinkClose ++ removeFirst (wrapThink rb) rest)) : Str) =
    wrapThink wb ++ removeFirst (wrapThink rb) rest
  have hfin : wrapThink wb ++ removeFirst (wrapThink rb) rest =
      '<' :: 't' :: 'h' :: 'i' :: 'n' :: 'k' :: '>' ::
        ((wb ++ thinkClose) ++ removeFirst (wrapThink rb) rest) := rfl
  rw [hfin, ← List.append_assoc]

theorem segsStr_append (l1 l2 : List (Option Str × Str)) :
    segsStr (l1 ++ l2) = segsStr l1 ++ segsStr l2 := by
  induction l1 with
  | nil => simp [segsStr]
  | cons p t ih =>
    obtain ⟨ob, g⟩ := p
    cases ob with
    | none =>
      rw [List.cons_append,
        show segsStr ((none, g) :: (t ++ l2)) = g ++ segsStr (t ++ l2) from rfl,
        show segsStr ((none, g) :: t) = g ++ segsStr t from rfl, ih, List.append_assoc]
    | some b =>
      rw [List.cons_append,
        show segsStr ((some b, g) :: (t ++ l2)) = wrapThink b ++ g ++ segsStr (t ++ l2)
          from rfl,
        show segsStr ((some b, g) :: t) = wrapThink b ++ g ++ segsStr t from rfl, ih]
      simp [List.append_assoc]

/-- Removing the literal `<think>b</think>` from a structured string whose
earlier segments carry only gaps and blocks with bodies different from `b`
deletes exactly the designated occurrence. -/
theorem removeFirst_segs {b : Str} (hb : noLt b) :
    ∀ (pref : List (Option Str × Str)) (X : Str),
    (∀ p ∈ pref, (∀ w, p.1 = some w → noLt w) ∧ noLt p.2) →
    (∀ p ∈ pref, ∀ w, p.1 = some w → w ≠ b) →
    removeFirst (wrapThink b) (segsStr pref ++ (wrapThink b ++ X)) =
      segsStr pref ++ X := by
  intro pref
  induction pref with
  | nil =>
    intro X _ _
    rw [show segsStr [] = ([] : Str) from rfl, List.nil_append, List.nil_append]
    exact removeFirst_wrap_hit b X
  | cons p t ih =>
    intro X hok hsep
    obtain ⟨ob, g⟩ := p
    have hokt : ∀ p ∈ t, (∀ w, p.1 = some w → noLt w) ∧ noLt p.2 :=
      fun p hp => hok p (List.mem_cons_of_mem _ hp)
    have hsept : ∀ p ∈ t, ∀ w, p.1 = some w → w ≠ b :=
      fun p hp => hsep p (List.mem_cons_of_mem _ hp)
    have hg : noLt g := (hok (ob, g) (List.mem_cons_self _ _)).2
    cases ob with
    | none =>
      rw [show segsStr ((none, g) :: t) = g ++ segsStr t from rfl, List.append_assoc,
        removeFirst_wrap_gap b hg, ih X hokt hsept, List.append_assoc]
    | some w =>
      have hw : noLt w := (hok (some w, g) (List.mem_cons_self _ _)).1 w rfl
      have hwb : b ≠ w := fun he =>
        (hsep (some w, g) (List.mem_cons_self _ _) w rfl) he.symm
      rw [show segsStr ((some w, g) :: t) = wrapThink w ++ g ++ segsStr t from rfl]
      rw [show (wrapThink w ++ g ++ segsStr t : Str) ++ (wrapThink b ++ X) =
        wrapThink w ++ (g ++ (segsStr t ++ (wrapThink b ++ X))) from by
          simp [List.append_assoc]]
      rw [removeFirst_wrap_skip hb hw hwb, removeFirst_wrap_gap b hg,
        ih X hokt hsept]
      simp [List.append_assoc]

theorem lastNonEmptyIdx_none_iff (bs : List Str) :
    lastNonEmptyIdx bs = none ↔ ∀ b ∈ bs, pyStrip b = [] := by
  induction bs with
  | nil => simp [lastNonEmptyIdx]
  | cons b t ih =>
    rw [show lastNonEmptyIdx (b :: t) =
      (match lastNonEmptyIdx t with
        | some j => some (j + 1)
        | none => if pyStrip b = [] then none else some 0) from rfl]
    cases hl : lastNonEmptyIdx t with
    | some j =>
      simp only []
      constructor
      · intro hx; cases hx
      · intro hall
        have : lastNonEmptyIdx t = none := ih.mpr (fun x hx =>
          hall x (List.mem_cons_of_mem _ hx))
        rw [hl] at this
        cases this
    | none =>
      simp only []
      by_cases hsb : pyStrip b = []
      · simp only [hsb, if_pos rfl]
        constructor
        · intro _ x hx
          rcases List.mem_cons.mp hx with he | hm
          · rw [he]; exact hsb
          · exact ih.mp hl x hm
        · intro _; rfl
      · rw [if_neg hsb]
        constructor
        · intro hx; cases hx
        · intro hall
          exact absurd (hall b (List.mem_cons_self _ _)) hsb

theorem lastNonEmptyIdx_self {bs : List Str} {k : Nat}
    (h : lastNonEmptyIdx bs = some k) :
    ∃ b, bs.get? k = some b ∧ pyStrip b ≠ [] := by
  induction bs generalizing k with
  | nil => cases h
  | cons b t ih =>
    rw [show lastNonEmptyIdx (b :: t) =
      (match lastNonEmptyIdx t with
        | some j => some (j + 1)
        | none => if pyStrip b = [] then none else some 0) from rfl] at h
    cases hl : lastNonEmptyIdx t with
    | some j =>
      rw [hl] at h
      simp only [Option.some_inj] at h
      subst h
      obtain ⟨x, hx1, hx2⟩ := ih hl
      exact ⟨x, by simpa using hx1, hx2⟩
    | none =>
      rw [hl] at h
      by_cases hsb : pyStrip b = []
      · rw [if_pos hsb] at h; cases h
      · rw [if_neg hsb] at h
        simp only [Option.some_inj] at h
        subst h
        exact ⟨b, rfl, hsb⟩

theorem lastNonEmptyIdx_later {bs : List Str} {k : Nat}
    (h : lastNonEmptyIdx bs = some k) :
    ∀ j b', bs.get? j = some b' → k < j → pyStrip b' = [] := by
  induction bs generalizing k with
  | nil => intro j b' hj _; cases hj
  | cons b t ih =>
    rw [show lastNonEmptyIdx (b :: t) =
      (match lastNonEmptyIdx t with
        | some j => some (j + 1)
        | none => if pyStrip b = [] then none else some 0) from rfl] at h
    intro j b' hj hkj
    cases hl : lastNonEmptyIdx t with
    | some m =>
      rw [hl] at h
      simp only [Option.some_inj] at h
      subst h
      cases j with
      | zero => omega
      | succ j' =>
        simp only [List.get?_cons_succ] at hj
        exact ih hl j' b' hj (by omega)
    | none =>
      rw [hl] at h
      by_cases hsb : pyStrip b = []
      · rw [if_pos hsb] at h; cases h
      · rw [if_neg hsb] at h
        simp only [Option.some_inj] at h
        cases j with
        | zero => omega
        | succ j' =>
          simp only [List.get?_cons_succ] at hj
          exact (lastNonEmptyIdx_none_iff t).mp hl b'
            (List.get?_mem hj)

theorem keepSep_of_get (keep : Option Nat) (ps : List (Str × Str))
    (hS : ∀ k, keep = some k → ∃ e, ps.get? k = some e ∧ pyStrip e.1 ≠ [])
    (hW : ∀ k, keep = some k → ∀ j e, ps.get? j = some e → k < j → pyStrip e.1 = []) :
    ∀ (entries : List (Str × Str)) (i : Nat),
    (∀ j, entries.get? j = ps.get? (i + j)) →
    KeepSep keep i entries := by
  intro entries
  induction entries with
  | nil => intro i _; trivial
  | cons e t ih =>
    intro i hget
    obtain ⟨b, g⟩ := e
    constructor
    · intro hk e' he'
      obtain ⟨j, hj⟩ := List.get?_of_mem he'
      have hj' : ps.get? (i + (j + 1)) = some e' := by
        rw [← hget (j + 1)]
        simpa using hj
      have hws : pyStrip e'.1 = [] := hW i hk (i + (j + 1)) e' hj' (by omega)
      obtain ⟨e0, he0, hne0⟩ := hS i hk
      have h0 : ps.get? (i + 0) = some (b, g) := by
        rw [← hget 0]; rfl
      rw [show i + 0 = i from rfl] at h0
      rw [h0] at he0
      cases he0
      intro hbe
      rw [hbe] at hne0
      exact hne0 hws
    · exact ih (i + 1) (fun j => by
        rw [show (i + 1) + j = i + (j + 1) from by omega, ← hget (j + 1)]
        rfl)

theorem tailStrKept_eq_segsStr (keep : Option Nat) :
    ∀ (entries : List (Str × Str)) (i : Nat),
    tailStrKept keep i entries = segsStr (keptSegs keep i entries) := by
  intro entries
  induction entries with
  | nil => intro i; rfl
  | cons e t ih =>
    intro i
    obtain ⟨b, g⟩ := e
    by_cases hk : keep = some i
    · rw [show tailStrKept keep i ((b, g) :: t) =
        (if keep = some i then wrapThink b else []) ++ g ++ tailStrKept keep (i + 1) t
        from rfl, if_pos hk,
        show keptSegs keep i ((b, g) :: t) =
          ((if keep = some i then some b else none), g) :: keptSegs keep (i + 1) t
          from rfl, if_pos hk,
        show segsStr ((some b, g) :: keptSegs keep (i + 1) t) =
          wrapThink b ++ g ++ segsStr (keptSegs keep (i + 1) t) from rfl, ih]
    · rw [show tailStrKept keep i ((b, g) :: t) =
        (if keep = some i then wrapThink b else []) ++ g ++ tailStrKept keep (i + 1) t
        from rfl, if_neg hk,
        show keptSegs keep i ((b, g) :: t) =
          ((if keep = some i then some b else none), g) :: keptSegs keep (i + 1) t
          from rfl, if_neg hk,
        show segsStr ((none, g) :: keptSegs keep (i + 1) t) =
          g ++ segsStr (keptSegs keep (i + 1) t) from rfl, ih]
      simp

theorem keptSegs_ok (keep : Option Nat) :
    ∀ (entries : List (Str × Str)) (i : Nat),
    (∀ e ∈ entries, noLt e.1 ∧ noLt e.2) →
    ∀ p ∈ keptSegs keep i entries, (∀ w, p.1 = some w → noLt w) ∧ noLt p.2 := by
  intro entries
  induction entries with
  | nil => intro i _ p hp; cases hp
  | cons e t ih =>
    intro i hok p hp
    obtain ⟨b, g⟩ := e
    rw [show keptSegs keep i ((b, g) :: t) =
      ((if keep = some i then some b else none), g) :: keptSegs keep (i + 1) t
      from rfl] at hp
    rcases List.mem_cons.mp hp with he | hm
    · subst he
      constructor
      · intro w hw
        by_cases hk : keep = some i
        · rw [if_pos hk] at hw
          cases hw
          exact (hok (b, g) (List.mem_cons_self _ _)).1
        · rw [if_neg hk] at hw
          cases hw
      · exact (hok (b, g) (List.mem_cons_self _ _)).2
    · exact ih (i + 1) (fun e he => hok e (List.mem_cons_of_mem _ he)) p hm

/-- The removal loop on a structured suffix: every block except the kept
one is deleted, gaps and the kept block survive untouched. -/
theorem removeLoop_segs (keep : Option Nat) :
    ∀ (entries : List (Str × Str)) (i : Nat) (pref : List (Option Str × Str)),
    (∀ p ∈ pref, (∀ w, p.1 = some w → noLt w) ∧ noLt p.2) →
    (∀ e ∈ entries, noLt e.1 ∧ noLt e.2) →
    (∀ p ∈ pref, ∀ w, p.1 = some w → ∀ e ∈ entries, w ≠ e.1) →
    KeepSep keep i entries →
    removeLoop keep i (entries.map Prod.fst) (segsStr pref ++ tailStr entries) =
      segsStr pref ++ tailStrKept keep i entries := by
  intro entries
  induction entries with
  | nil => intro i pref _ _ _ _; rfl
  | cons e t ih =>
    intro i pref hpok heok hsep hks
    obtain ⟨b, g⟩ := e
    have hb : noLt b := (heok (b, g) (List.mem_cons_self _ _)).1
    have hg : noLt g := (heok (b, g) (List.mem_cons_self _ _)).2
    have heokt : ∀ e ∈ t, noLt e.1 ∧ noLt e.2 :=
      fun e he => heok e (List.mem_cons_of_mem _ he)
    rw [show ((b, g) :: t).map Prod.fst = b :: t.map Prod.fst from rfl,
      show removeLoop keep i (b :: t.map Prod.fst)
          (segsStr pref ++ tailStr ((b, g) :: t)) =
        removeLoop keep (i + 1) (t.map Prod.fst)
          (if keep = some i then segsStr pref ++ tailStr ((b, g) :: t)
           else removeFirst (wrapThink b) (segsStr pref ++ tailStr ((b, g) :: t)))
        from rfl]
    by_cases hk : keep = some i
    · rw [if_pos hk]
      have hshape : segsStr pref ++ tailStr ((b, g) :: t) =
          segsStr (pref ++ [(some b, g)]) ++ tailStr t := by
        rw [segsStr_append,
          show segsStr [(some b, g)] = wrapThink b ++ g ++ segsStr [] from rfl,
          show segsStr ([] : List (Option Str × Str)) = [] from rfl,
          show tailStr ((b, g) :: t) = wrapThink b ++ g ++ tailStr t from rfl]
        simp [List.append_assoc]
      rw [hshape]
      have hres := ih (i + 1) (pref ++ [(some b, g)])
        (fun p hp => by
          rcases List.mem_append.mp hp with hm | hm
          · exact hpok p hm
          · rcases List.mem_singleton.mp hm with rfl
            exact ⟨fun w hw => by cases hw; exact hb, hg⟩)
        heokt
        (fun p hp w hw e he => by
          rcases List.mem_append.mp hp with hm | hm
          · exact hsep p hm w hw e (List.mem_cons_of_mem _ he)
          · rcases List.mem_singleton.mp hm with rfl
            cases hw
            exact hks.1 hk e he)
        hks.2
      rw [hres, segsStr_append,
        show segsStr [(some b, g)] = wrapThink b ++ g ++ segsStr [] from rfl,
        show segsStr ([] : List (Option Str × Str)) = [] from rfl,
        show tailStrKept keep i ((b, g) :: t) =
          (if keep = some i then wrapThink b else []) ++ g ++ tailStrKept keep (i + 1) t
          from rfl, if_pos hk]
      simp [List.append_assoc]
    · rw [if_neg hk]
      have hsh2 : segsStr pref ++ tailStr ((b, g) :: t) =
          segsStr pref ++ (wrapThink b ++ (g ++ tailStr t)) := by
        rw [show tailStr ((b, g) :: t) = wrapThink b ++ g ++ tailStr t from rfl]
        simp [List.append_assoc]
      rw [hsh2, removeFirst_segs hb pref (g ++ tailStr t) hpok
        (fun p hp w hw => hsep p hp w hw (b, g) (List.mem_cons_self _ _))]
      have hshape : segsStr pref ++ (g ++ tailStr t) =
          segsStr (pref ++ [(none, g)]) ++ tailStr t := by
        rw [segsStr_append,
          show segsStr [(none, g)] = g ++ segsStr [] from rfl,
          show segsStr ([] : List (Option Str × Str)) = [] from rfl]
        simp [List.append_assoc]
      rw [hshape]
      have hres := ih (i + 1) (pref ++ [(none, g)])
        (fun p hp => by
          rcases List.mem_append.mp hp with hm | hm
          · exact hpok p hm
          · rcases List.mem_singleton.mp hm with rfl
            exact ⟨(fun w hw => nomatch hw), hg⟩)
        heokt
        (fun p hp w hw e he => by
          rcases List.mem_append.mp hp with hm | hm
          · exact hsep p hm w hw e (List.mem_cons_of_mem _ he)
          · rcases List.mem_singleton.mp hm with rfl
            cases hw)
        hks.2
      rw [hres, segsStr_append,
        show segsStr [(none, g)] = g ++ segsStr [] from rfl,
        show segsStr ([] : List (Option Str × Str)) = [] from rfl,
        show tailStrKept keep i ((b, g) :: t) =
          (if keep = some i then wrapThink b else []) ++ g ++ tailStrKept keep (i + 1) t
          from rfl, if_neg hk]
      simp [List.append_assoc]

/-- C3 counterexample: with two complete regions `a<b` (non-whitespace) and
`" "` (whitespace) after the marker, the claim demands that exactly
`<think>a<b</think>` survives and non-think content `x` stays.  The code
removes the whitespace block, but then the incomplete-block regex, confused
by the `'<'` inside the kept body, truncates everything: the result is bare
"assistant". -/
theorem c3_keep_last_counterexample :
    remove_all_thinks_except_last
        "assistant<think>a<b</think>x<think> </think>".toList =
        "assistant".toList ∧
      remove_all_thinks_except_last
          "assistant<think>a<b</think>x<think> </think>".toList ≠
        "assistant<think>a<b</think>x".toList := by
  exact ⟨by decide, by decide⟩

/-- C3 amended: on observations whose suffix after "assistant" consists of
non-think gaps and complete think regions in which `'<'` occurs only as
part of the think tags themselves (gaps and bodies `'<'`-free), with two or
more regions, `remove_all_thinks_except_last` keeps exactly the last region
whose body is non-whitespace and removes every other complete region,
leaving all non-think content untouched; if all bodies are whitespace,
every region is removed. -/
theorem c3_keeps_last_nonwhitespace_block (pre g0 : Str) (ps : List (Str × Str))
    (hpre : containsSub pre asstTok = false)
    (hg0 : noLt g0)
    (hps : ∀ e ∈ ps, noLt e.1 ∧ noLt e.2)
    (hlen : 2 ≤ ps.length) :
    remove_all_thinks_except_last (pre ++ asstTok ++ (g0 ++ tailStr ps)) =
      pre ++ asstTok ++
        (g0 ++ tailStrKept (lastNonEmptyIdx (ps.map Prod.fst)) 0 ps) := by
  rcases ps with _ | ⟨e1, ps'⟩
  · simp at hlen
  rcases ps' with _ | ⟨e2, t2⟩
  · simp at hlen
  set ps := e1 :: e2 :: t2 with hpsdef
  set keep := lastNonEmptyIdx (ps.map Prod.fst) with hkeep
  have hfs := findSub_asst pre (g0 ++ tailStr ps) hpre
  have htake := take_marker pre (g0 ++ tailStr ps)
  have hdrop := drop_marker pre (g0 ++ tailStr ps)
  have hscan : scanThinks (g0 ++ tailStr ps) = ps.map Prod.fst :=
    scanThinks_tailStr hg0 hps
  -- KeepSep for the loop
  have hS : ∀ k, keep = some k → ∃ e, ps.get? k = some e ∧ pyStrip e.1 ≠ [] := by
    intro k hk
    rw [hkeep] at hk
    obtain ⟨b, hb1, hb2⟩ := lastNonEmptyIdx_self hk
    rw [List.get?_map] at hb1
    cases hget : ps.get? k with
    | none => rw [hget] at hb1; cases hb1
    | some e =>
      rw [hget] at hb1
      simp only [Option.map_some', Option.some_inj] at hb1
      exact ⟨e, rfl, by rw [hb1]; exact hb2⟩
  have hW : ∀ k, keep = some k →
      ∀ j e, ps.get? j = some e → k < j → pyStrip e.1 = [] := by
    intro k hk j e hj hkj
    rw [hkeep] at hk
    have : (ps.map Prod.fst).get? j = some e.1 := by
      rw [List.get?_map, hj]
      rfl
    exact lastNonEmptyIdx_later hk j e.1 this hkj
  have hks : KeepSep keep 0 ps :=
    keepSep_of_get keep ps hS hW ps 0 (fun j => by rw [Nat.zero_add])
  -- the removal loop on the structured suffix
  have hpref0 : ∀ p ∈ [((none : Option Str), g0)],
      (∀ w, p.1 = some w → noLt w) ∧ noLt p.2 := by
    intro p hp
    rcases List.mem_singleton.mp hp with rfl
    exact ⟨(fun w hw => nomatch hw), hg0⟩
  have hsep0 : ∀ p ∈ [((none : Option Str), g0)], ∀ w, p.1 = some w →
      ∀ e ∈ ps, w ≠ e.1 := by
    intro p hp w hw
    rcases List.mem_singleton.mp hp with rfl
    cases hw
  have hseg0 : segsStr [((none : Option Str), g0)] = g0 := by
    rw [show segsStr [((none : Option Str), g0)] = g0 ++ segsStr [] from rfl,
      show segsStr ([] : List (Option Str × Str)) = [] from rfl, List.append_nil]
  have hloop : removeLoop keep 0 (ps.map Prod.fst) (g0 ++ tailStr ps) =
      g0 ++ tailStrKept keep 0 ps := by
    have := removeLoop_segs keep ps 0 [((none : Option Str), g0)]
      hpref0 hps hsep0 hks
    rw [hseg0] at this
    exact this
  -- no incomplete block in the final string
  have hkok : ∀ p ∈ ((none : Option Str), g0) :: keptSegs keep 0 ps,
      (∀ w, p.1 = some w → noLt w) ∧ noLt p.2 := by
    intro p hp
    rcases List.mem_cons.mp hp with rfl | hm
    · exact ⟨(fun w hw => nomatch hw), hg0⟩
    · exact keptSegs_ok keep ps 0 hps p hm
  have hinc : incompleteStart (g0 ++ tailStrKept keep 0 ps) = none := by
    rw [tailStrKept_eq_segsStr,
      show (g0 ++ segsStr (keptSegs keep 0 ps) : Str) =
        segsStr (((none : Option Str), g0) :: keptSegs keep 0 ps) from rfl]
    exact incompleteStart_segs hkok
  -- assemble
  rw [remove_all_thinks_except_last, hfs]
  simp only [htake, hdrop, hscan, hpsdef, List.map_cons]
  rw [← List.map_cons, ← List.map_cons, ← hpsdef, ← hkeep, hloop, hinc]

/-- Witness for C3 (amended): two blocks, the first non-whitespace, the
second whitespace-only; exactly the first survives. -/
theorem c3_keeps_last_nonwhitespace_block_witness :
    containsSub "u ".toList asstTok = false ∧
      noLt "A".toList ∧
      (∀ e ∈ [("t1".toList, "B".toList), ("  ".toList, "C".toList)],
        noLt e.1 ∧ noLt e.2) ∧
      remove_all_thinks_except_last ("u ".toList ++ asstTok ++
          ("A".toList ++ tailStr [("t1".toList, "B".toList), ("  ".toList, "C".toList)])) =
        "u ".toList ++ asstTok ++
          ("A".toList ++ tailStrKept
            (lastNonEmptyIdx ([("t1".toList, "B".toList), ("  ".toList, "C".toList)].map
              Prod.fst)) 0
            [("t1".toList, "B".toList), ("  ".toList, "C".toList)]) :=
  ⟨by decide, by decide, by decide,
    c3_keeps_last_nonwhitespace_block _ _ _ (by decide) (by decide) (by decide)
      (by decide)⟩

/- ------------------------------------------------------------------
Claim theorems (easy group): C1, C6, C7, C8, C10
------------------------------------------------------------------ -/

/-- C4 counterexample: the claim says an opening tag that has a later
matching closing tag is never truncated away by the trailing-incomplete
rule.  But the incomplete-block regex only looks for a closing tag across
non-`'<'` characters: in `assistant<think>a<b</think>xyz` the single
complete block is kept by the block pass, yet the `'<'` inside its body
makes the search treat the opening tag as incomplete and the whole suffix
is discarded. -/
theorem c4_truncation_counterexample :
    remove_all_thinks_except_last "assistant<think>a<b</think>xyz".toList =
        "assistant".toList ∧
      containsSub "a<b</think>xyz".toList thinkClose = true ∧
      remove_all_thinks_except_last "assistant<think>a<b</think>xyz".toList ≠
        "assistant<think>a<b</think>xyz".toList := by
  exact ⟨by decide, by decide, by decide⟩

/-- C4 amended: in the suffix after the assistant marker, an opening tag
that is not followed by a closing tag is detected and the suffix is
truncated at the start of that opening tag, discarding everything after it
(here: a `'<'`-free prefix `u`, then `<think>`, then any `v` with no
closing tag).  An opening tag only escapes truncation when a closing tag
follows it with no `'<'` in between — not merely when a matching closing
tag exists. -/
theorem c4_truncates_at_unterminated_open (pre u v : Str)
    (hpre : containsSub pre asstTok = false)
    (hu : noLt u)
    (hv : containsSub v thinkClose = false) :
    remove_all_thinks_except_last (pre ++ asstTok ++ (u ++ thinkOpen ++ v)) =
      pre ++ asstTok ++ u := by
  have hfs := findSub_asst pre (u ++ thinkOpen ++ v) hpre
  have htake := take_marker pre (u ++ thinkOpen ++ v)
  have hdrop := drop_marker pre (u ++ thinkOpen ++ v)
  have hscan := scanThinks_unterminated hu hv
  have hinc := incompleteStart_unterminated hu hv
  rw [remove_all_thinks_except_last, hfs]
  simp only [htake, hdrop, hscan, hinc]
  rw [show (u ++ thinkOpen ++ v : Str) = u ++ (thinkOpen ++ v) from by
    rw [List.append_assoc], List.take_left, List.append_assoc]

/-- Witness for C4 (amended) at a concrete observation. -/
theorem c4_truncates_at_unterminated_open_witness :
    containsSub "sys ".toList asstTok = false ∧
      noLt "ab".toList ∧
      containsSub "cd<think>ef".toList thinkClose = false ∧
      remove_all_thinks_except_last
          ("sys ".toList ++ asstTok ++ ("ab".toList ++ thinkOpen ++ "cd<think>ef".toList)) =
        "sys ".toList ++ asstTok ++ "ab".toList :=
  ⟨by decide, by decide, by decide,
    c4_truncates_at_unterminated_open _ _ _ (by decide) (by decide) (by decide)⟩

/-- C2 counterexample: the claim quantifies over all delimiter-free
`mem_id`/`answer`, but a delimiter occurrence can straddle a field boundary.
With `mem_id` equal to the delimiter minus its trailing blank line, the
label still splits into exactly three parts — the wrong three — and decoding
silently returns a different triple. -/
theorem c2_roundtrip_counterexample :
    containsSub "\n\n~/~/~/~/~/~/~/~/~/~/~/~".toList DELIMITER = false ∧
      containsSub "y".toList DELIMITER = false ∧
      extract_task_from_label
          (construct_label .RETRIEVAL "y".toList
            "\n\n~/~/~/~/~/~/~/~/~/~/~/~".toList) ≠
        Except.ok ⟨.RETRIEVAL, "\n\n~/~/~/~/~/~/~/~/~/~/~/~".toList, "y".toList⟩ := by
  exact ⟨by decide, by decide, by decide⟩

/-- C2 amended: decoding the encoded label returns the original triple
whenever the delimiter occurs exactly twice in the constructed label (which
the two field delimiters always account for; the hypothesis additionally
rules out occurrences inside a field or straddling a field boundary). -/
theorem c2_label_roundtrip_two_occurrences (tt : TaskType) (mem_id answer : Str)
    (hocc : (occPositions DELIMITER (construct_label tt answer mem_id)).length = 2) :
    extract_task_from_label (construct_label tt answer mem_id) =
      .ok ⟨tt, mem_id, answer⟩ := by
  have hD : DELIMITER ≠ [] := by decide
  have hDlen : 0 < DELIMITER.length := by decide
  set label := construct_label tt answer mem_id with hlabel
  set p1 := tt.value.length with hp1
  set p2 := tt.value.length + DELIMITER.length + mem_id.length with hp2
  have hshape1 : label = tt.value ++ DELIMITER ++
      (mem_id ++ DELIMITER ++ answer) := by
    simp [hlabel, construct_label, List.append_assoc]
  have hshape1' : label = tt.value ++ (DELIMITER ++
      (mem_id ++ DELIMITER ++ answer)) := by
    rw [hshape1, List.append_assoc]
  have hshape2 : label = (tt.value ++ DELIMITER ++ mem_id) ++
      (DELIMITER ++ answer) := by
    simp [hlabel, construct_label, List.append_assoc]
  have hshape3 : label = (tt.value ++ DELIMITER ++ mem_id ++ DELIMITER) ++
      answer := by
    simp [hlabel, construct_label, List.append_assoc]
  have h1 : DELIMITER.isPrefixOf (label.drop p1) = true := by
    rw [hshape1', hp1, List.drop_left]
    exact List.isPrefixOf_iff_prefix.mpr (List.prefix_append _ _)
  have h2 : DELIMITER.isPrefixOf (label.drop p2) = true := by
    have hlen : (tt.value ++ DELIMITER ++ mem_id).length = p2 := by
      simp [hp2, List.length_append]
      omega
    rw [hshape2, ← hlen, List.drop_left]
    exact List.isPrefixOf_iff_prefix.mpr (List.prefix_append _ _)
  have hmem1 : p1 ∈ occPositions DELIMITER label :=
    (mem_occPositions hD label p1).mpr h1
  have hmem2 : p2 ∈ occPositions DELIMITER label :=
    (mem_occPositions hD label p2).mpr h2
  have hne12 : p1 ≠ p2 := by
    rw [hp1, hp2]
    omega
  have honly : ∀ y ∈ occPositions DELIMITER label, y = p1 ∨ y = p2 := by
    obtain ⟨x0, x1, hx⟩ := List.length_eq_two.mp hocc
    rw [hx] at hmem1 hmem2
    intro y hy
    rw [hx] at hy
    simp only [List.mem_cons, List.mem_singleton, List.not_mem_nil, or_false] at hmem1 hmem2 hy
    rcases hmem1 with e1 | e1 <;> rcases hmem2 with e2 | e2 <;>
      rcases hy with e3 | e3 <;> subst e3 <;> omega
  have hnopre : ∀ i, DELIMITER.isPrefixOf (label.drop i) = true → i = p1 ∨ i = p2 :=
    fun i hi => honly i ((mem_occPositions hD label i).mpr hi)
  -- first split step: part before the first delimiter is the type value
  have hstep1 : pySplit DELIMITER label =
      tt.value :: pySplitA DELIMITER 0 [] (mem_id ++ DELIMITER ++ answer) := by
    have hcond : ∀ i, i < tt.value.length →
        DELIMITER.isPrefixOf
          ((tt.value ++ DELIMITER ++ (mem_id ++ DELIMITER ++ answer)).drop i) = false := by
      intro i hi
      rw [← hshape1]
      cases hpre : DELIMITER.isPrefixOf (label.drop i) with
      | false => rfl
      | true =>
        exfalso
        rcases hnopre i hpre with e | e <;> omega
    have := pySplitA_hit hD tt.value (mem_id ++ DELIMITER ++ answer) hcond []
    simp only [pySplit]
    rw [hshape1, this]
    simp
  -- second split step: the next part is mem_id
  have hshA : label = (tt.value ++ DELIMITER) ++ (mem_id ++ DELIMITER ++ answer) := by
    simp [hlabel, construct_label, List.append_assoc]
  have hdropsufx : ∀ i, (mem_id ++ DELIMITER ++ answer).drop i =
      label.drop (p1 + DELIMITER.length + i) := by
    intro i
    have hlen2 : p1 + DELIMITER.length + i = (tt.value ++ DELIMITER).length + i := by
      simp [hp1, List.length_append]
    rw [hshA, hlen2, drop_append_shift]
  have hstep2 : pySplitA DELIMITER 0 [] (mem_id ++ DELIMITER ++ answer) =
      mem_id :: pySplitA DELIMITER 0 [] answer := by
    have hcond : ∀ i, i < mem_id.length →
        DELIMITER.isPrefixOf ((mem_id ++ DELIMITER ++ answer).drop i) = false := by
      intro i hi
      cases hpre : DELIMITER.isPrefixOf ((mem_id ++ DELIMITER ++ answer).drop i) with
      | false => rfl
      | true =>
        exfalso
        rw [hdropsufx i] at hpre
        rcases hnopre _ hpre with e | e <;> omega
    have := pySplitA_hit hD mem_id answer hcond []
    rw [this]
    simp
  -- third: answer contains no delimiter occurrence at all
  have hstep3 : pySplitA DELIMITER 0 [] answer = [answer] := by
    have hshift : ∀ i, answer.drop i = label.drop (p2 + DELIMITER.length + i) := by
      intro i
      have hlen : (tt.value ++ DELIMITER ++ mem_id ++ DELIMITER).length =
          p2 + DELIMITER.length := by
        simp [hp2, List.length_append]
        omega
      rw [hshape3, ← hlen, drop_append_shift]
    have hcond : ∀ i, DELIMITER.isPrefixOf (answer.drop i) = false := by
      intro i
      cases hpre : DELIMITER.isPrefixOf (answer.drop i) with
      | false => rfl
      | true =>
        exfalso
        rw [hshift i] at hpre
        rcases hnopre _ hpre with e | e <;> omega
    have := pySplitA_no_occ hcond []
    rw [this]
    simp
  have hsplit : pySplit DELIMITER label = [tt.value, mem_id, answer] := by
    rw [hstep1, hstep2, hstep3]
  simp only [extract_task_from_label, hsplit, taskTypeOfValue_value]

/-- Witness for C2 (amended) at concrete delimiter-free fields. -/
theorem c2_label_roundtrip_two_occurrences_witness :
    (occPositions DELIMITER
        (construct_label .RETRIEVAL "a2".toList "m1".toList)).length = 2 ∧
      extract_task_from_label (construct_label .RETRIEVAL "a2".toList "m1".toList) =
        .ok ⟨.RETRIEVAL, "m1".toList, "a2".toList⟩ :=
  ⟨by decide, c2_label_roundtrip_two_occurrences _ _ _ (by decide)⟩


/-- C1: the claim says `calculate_update_reply_reward` terminates normally
and returns a float in [0,1] for every UPDATE task, never raising.  In fact
the call `get_update_reward(python_blocks=..., diff=..., debug=True)` uses
keyword arguments that name no parameter of `get_update_reward
(user_query, initial_folder_dump, final_folder_dump, debug)`, so every
invocation raises `TypeError` before the judge is ever consulted. -/
theorem c1_update_reply_reward_always_raises_type_error
    (judge : Str → Str → Bool → ℚ) (observation reply : Str) (task : Task) :
    calculate_update_reply_reward judge observation reply task =
      .error .typeError := by
  rfl

/-- C6: the claim (and the function's own docstring) says `write_to_file`
returns `false` when the patch tool is unavailable, never raising.  The
body has no `except` clause: when `git` is absent `subprocess.run` raises
`FileNotFoundError`, which propagates.  On the normal path the result is
`true` iff both phases exit with code 0, as claimed. -/
theorem c6_write_to_file_raises_when_git_unavailable
    (target0 : Str) (rc1 rc2 : Int) (eff : Str → Str) :
    (write_to_file ⟨.ok, false, rc1, rc2, eff⟩ target0).1 =
        .error .fileNotFound ∧
      (write_to_file ⟨.ok, true, rc1, rc2, eff⟩ target0).1 =
        .ok (decide (rc1 = 0) && decide (rc2 = 0)) := by
  constructor
  · rfl
  · by_cases h1 : rc1 = 0
    · subst h1
      simp [write_to_file]
    · simp [write_to_file, h1]

/-- C7: when the dry run fails the apply phase never runs, the call returns
`false`, the target is unchanged and the scratch file is removed — but the
claim's "scratch file absent on every exit path (success, failure, or
exception)" fails: if writing the scratch file raises after creating it,
the `finally` block hits the unassigned local `patch_file`, raises
`UnboundLocalError`, and the scratch file remains. -/
theorem c7_dry_run_failure_and_scratch_leak :
    (∀ (target0 : Str) (rcA : Int) (eff : Str → Str),
        write_to_file ⟨.ok, true, 1, rcA, eff⟩ target0 =
          (.ok false, ⟨false, target0, 0⟩)) ∧
      (∀ target0 : Str,
        write_to_file ⟨.failCreated, true, 0, 0, fun s => s⟩ target0 =
          (.error .unboundLocal, ⟨true, target0, 0⟩)) := by
  constructor
  · intro target0 rcA eff
    rfl
  · intro target0
    rfl

/-- C8: whatever the injected reply-reward calculator returns, and whatever
the other inputs are, the reward returned by `process_action_base` is
clamped into [0,1]. -/
theorem c8_process_action_base_reward_in_unit_interval
    (observation action python_code reply thoughts : Str) (task : Task)
    (thoughts_min_length step_num : Int)
    (reply_reward_calculator : Str → Str → Task → ℚ)
    (execFmt : Str → Task → Str) :
    0 ≤ (process_action_base observation action python_code reply thoughts task
          thoughts_min_length step_num reply_reward_calculator execFmt).1 ∧
      (process_action_base observation action python_code reply thoughts task
          thoughts_min_length step_num reply_reward_calculator execFmt).1 ≤ 1 := by
  exact ⟨le_max_right _ _, max_le (min_le_right _ _) (by norm_num)⟩

/-- C10: an observation with no occurrence of the substring "assistant" is
returned unchanged by `remove_all_thinks_except_last`, whatever think
blocks it contains. -/
theorem c10_no_assistant_marker_means_unchanged
    (observation : Str) (h : containsSub observation asstTok = false) :
    remove_all_thinks_except_last observation = observation := by
  have hnone : findSub observation asstTok = none := by
    cases hf : findSub observation asstTok with
    | none => rfl
    | some v =>
      rw [containsSub, hf] at h
      cases h
  simp [remove_all_thinks_except_last, hnone]

/-- Witness for C10 at a concrete observation containing complete,
whitespace-only and unterminated think blocks but no "assistant". -/
theorem c10_no_assistant_marker_means_unchanged_witness :
    containsSub "user <think>x</think><think> </think><think>open".toList asstTok = false ∧
      remove_all_thinks_except_last
          "user <think>x</think><think> </think><think>open".toList =
        "user <think>x</think><think> </think><think>open".toList :=
  ⟨by decide, c10_no_assistant_marker_means_unchanged _ (by decide)⟩

end Dria
